import Mathlib

/-!
Verification of the lmd-code/lmdjsutils repository.

The repository wraps browser `localStorage` and `document.cookie`. Its two
non-trivial algorithms are

* the keyed-store serializer of `src/LmdStorage/LmdStorage.js` (version 1.3.1,
  the final class in that file): `jsonify` serializes a JS `Map` with
  `JSON.stringify` plus a replacer that rewrites every nested `Map` into a
  wrapper object holding the sentinel key (`mapKey`, default `_map`) and the
  entry list, and `mapify` parses with `JSON.parse` plus a reviver that turns
  every decoded object owning the sentinel key back into a `Map`;

* the cookie-expiration token parser of `src/LmdCookies/LmdCookies.js`
  (`calcExpiresDate`), which splits the input on whitespace, matches each token
  against the regular expression `(\d+)(\w+)` and applies the recognized unit
  codes as UTC calendar adjustments to the current time.

This file gives a shallow embedding of those algorithms: JS values become the
inductive `JVal` family, `JSON.stringify` and `JSON.parse` are modelled over
`List Char` (JSON numbers are modelled as integers; IEEE floating point is out
of scope, and every number the claims exercise is integral), and the
`localStorage` slot of a store becomes an explicit state record.  JS `Map`
and object keys are modelled as strings (`List Char`); exotic Maps with
non-string keys, which never arise from the serializer itself, are outside the
model and noted where relevant.
-/

set_option maxHeartbeats 1600000

/- JS values as the serializer sees them.  `map` is a JS `Map` (ordered
string-keyed entries), `obj` a plain JSON object, `func` stands for a value
with no JSON representation (such as a function).  Numbers are modelled as
integers. -/
mutual
inductive JVal : Type where
  | null : JVal
  | bool : Bool → JVal
  | num : Int → JVal
  | str : List Char → JVal
  | arr : JArr → JVal
  | obj : JFields → JVal
  | map : JFields → JVal
  | func : JVal
deriving DecidableEq
inductive JArr : Type where
  | nil : JArr
  | cons : JVal → JArr → JArr
deriving DecidableEq
inductive JFields : Type where
  | nil : JFields
  | fcons : List Char → JVal → JFields → JFields
deriving DecidableEq
end

def JVal.isMap : JVal → Bool
  | .map _ => true
  | _ => false

/-- Length of a JS array. -/
def JArr.len : JArr → Nat
  | .nil => 0
  | .cons _ xs => 1 + xs.len

/-- Element lookup in a JS array. -/
def JArr.get? : JArr → Nat → Option JVal
  | .nil, _ => none
  | .cons x _, 0 => some x
  | .cons _ xs, n + 1 => xs.get? n

/-- First binding of a key in an ordered field list (JS property lookup). -/
def JFields.getKey? : JFields → List Char → Option JVal
  | .nil, _ => none
  | .fcons k v fs, k' => if k = k' then some v else fs.getKey? k'

/-- Whether a key is bound (JS `hasOwnProperty`). -/
def JFields.hasKey (fs : JFields) (k : List Char) : Bool :=
  (fs.getKey? k).isSome

/-- Remove every binding of a key. -/
def JFields.removeKey : JFields → List Char → JFields
  | .nil, _ => .nil
  | .fcons k v fs, k' =>
    if k = k' then fs.removeKey k' else .fcons k v (fs.removeKey k')

/-- The keys of a field list, in order. -/
def JFields.keys : JFields → List (List Char)
  | .nil => []
  | .fcons k _ fs => k :: fs.keys

/-- JS property assignment and `Map.prototype.set`: an existing key keeps its
position and gets the new value, a new key is appended. -/
def JFields.setEntry : JFields → List Char → JVal → JFields
  | .nil, k, v => .fcons k v .nil
  | .fcons k' v' fs, k, v =>
    if k' = k then .fcons k' v fs else .fcons k' v' (fs.setEntry k v)

/-- Building a field list by repeated JS assignment, left to right. -/
def JFields.setAll : JFields → List (List Char × JVal) → JFields
  | fs, [] => fs
  | fs, (k, v) :: rest => (fs.setEntry k v).setAll rest

/-- Whitespace accepted by the JSON grammar: space, tab, line feed, carriage
return (code points 32, 9, 10, 13). -/
def isJsonWs (c : Char) : Bool :=
  c.toNat = 32 ∨ c.toNat = 9 ∨ c.toNat = 10 ∨ c.toNat = 13

def lbrace : Char := Char.ofNat 123
def rbrace : Char := Char.ofNat 125

/-- The text form of an empty JSON object, the fallback output of `jsonify`. -/
def emptyObjChars : List Char := [lbrace, rbrace]

def nullChars : List Char := ['n', 'u', 'l', 'l']
def trueChars : List Char := ['t', 'r', 'u', 'e']
def falseChars : List Char := ['f', 'a', 'l', 's', 'e']

/-- The decimal digit character for `n < 10`. -/
def digChar (n : Nat) : Char := Char.ofNat (48 + n)

/-- Decimal digits of a natural number, most significant first (fuelled; the
fuel `n + 1` always suffices). -/
def natDigitsAux : Nat → Nat → List Char
  | 0, _ => []
  | fuel + 1, n =>
    if n < 10 then [digChar n] else natDigitsAux fuel (n / 10) ++ [digChar (n % 10)]

def natDigits (n : Nat) : List Char := natDigitsAux (n + 1) n

/-- Decimal text of an integer, as JS number-to-string produces for safe
integers. -/
def intChars : Int → List Char
  | .ofNat n => natDigits n
  | .negSucc m => '-' :: natDigits (m + 1)

/-- Lower-case hexadecimal digit for `n < 16`, as `JSON.stringify` uses in
`\u00..` escapes. -/
def hexChar (n : Nat) : Char :=
  if n < 10 then Char.ofNat (48 + n) else Char.ofNat (87 + n)

/-- How `JSON.stringify` renders one character inside a string literal:
quote and backslash are escaped, the five named control escapes are used for
backspace, tab, newline, form feed and carriage return, any other control
character becomes a `\u00..` escape, and everything else is emitted
verbatim. -/
def escChar (c : Char) : List Char :=
  if c = '"' then ['\\', '"']
  else if c = '\\' then ['\\', '\\']
  else if c = '\x08' then ['\\', 'b']
  else if c = '\t' then ['\\', 't']
  else if c = '\n' then ['\\', 'n']
  else if c = '\x0c' then ['\\', 'f']
  else if c = '\r' then ['\\', 'r']
  else if c.toNat < 32 then
    ['\\', 'u', '0', '0', hexChar (c.toNat / 16), hexChar (c.toNat % 16)]
  else [c]

/-- Body of a JSON string literal. -/
def escBody : List Char → List Char
  | [] => []
  | c :: cs => escChar c ++ escBody cs

/-- Full JSON string literal, quotes included. -/
def escStr (s : List Char) : List Char := '"' :: escBody s ++ ['"']

/-- Comma-join of already rendered pieces, as `JSON.stringify` does for array
elements and object members. -/
def joinComma : List (List Char) → List Char
  | [] => []
  | [s] => s
  | s :: t :: rest => s ++ ',' :: joinComma (t :: rest)

/-!
The replacer of `LmdStorage.jsonify` rewrites, before encoding, every `Map`
into the object holding the sentinel key bound to the entry list (each entry a
two-element array `[key, value]`).  `rawOf` applies that rewriting to the whole
tree at once, which is what `JSON.stringify value-by-value amounts to; the
printer `printRaw` then renders the resulting Map-free tree exactly as
`JSON.stringify` renders plain data: no whitespace, fields of functions
omitted, functions in array slots rendered as `null`, and `undefined` as the
result for a bare function (here: `none`).
-/

mutual
def rawOf (mk : List Char) : JVal → JVal
  | .map es => .obj (.fcons mk (.arr (entryArrOf mk es)) .nil)
  | .arr xs => .arr (rawOfArr mk xs)
  | .obj fs => .obj (rawOfFields mk fs)
  | .null => .null
  | .bool b => .bool b
  | .num n => .num n
  | .str s => .str s
  | .func => .func
def rawOfArr (mk : List Char) : JArr → JArr
  | .nil => .nil
  | .cons x xs => .cons (rawOf mk x) (rawOfArr mk xs)
def rawOfFields (mk : List Char) : JFields → JFields
  | .nil => .nil
  | .fcons k v fs => .fcons k (rawOf mk v) (rawOfFields mk fs)
def entryArrOf (mk : List Char) : JFields → JArr
  | .nil => .nil
  | .fcons k v es =>
    .cons (.arr (.cons (.str k) (.cons (rawOf mk v) .nil))) (entryArrOf mk es)
end

mutual
def printRaw : JVal → Option (List Char)
  | .null => some nullChars
  | .bool true => some trueChars
  | .bool false => some falseChars
  | .num n => some (intChars n)
  | .str s => some (escStr s)
  | .arr xs => some ('[' :: joinComma (elemStrs xs) ++ [']'])
  | .obj fs => some (lbrace :: joinComma (fieldStrs fs) ++ [rbrace])
  | .map _ => none
  | .func => none
def elemStrs : JArr → List (List Char)
  | .nil => []
  | .cons x xs => (printRaw x).getD nullChars :: elemStrs xs
def fieldStrs : JFields → List (List Char)
  | .nil => []
  | .fcons k v fs =>
    match printRaw v with
    | some s => (escStr k ++ ':' :: s) :: fieldStrs fs
    | none => fieldStrs fs
end

/-- `LmdStorage.jsonify`: a `Map` argument is stringified through the
Map-rewriting replacer; any other argument, and a stringification that yields
no string, fall through to the empty-object text.  (The `try`/`catch` around
`JSON.stringify` catches only exceptions such as cyclic references, which
cannot arise for the finite values of this model.) -/
def jsonify (mk : List Char) (v : JVal) : List Char :=
  match v with
  | .map es => (printRaw (rawOf mk (.map es))).getD emptyObjChars
  | _ => emptyObjChars

/-!
A JSON parser over `List Char`, modelling `JSON.parse` (ECMA-404 grammar,
with the single restriction that number literals with a fraction or an
exponent are rejected, since numbers are modelled as integers; such texts are
classified as unparseable).  Objects collect their members with JS
assignment semantics: a duplicated key keeps its first position and takes its
last value.
-/

def skipWs : List Char → List Char
  | [] => []
  | c :: cs => if isJsonWs c then skipWs cs else c :: cs

/-- Value of a hexadecimal digit, for `\u....` escapes. -/
def hexVal (c : Char) : Option Nat :=
  if '0' ≤ c ∧ c ≤ '9' then some (c.toNat - 48)
  else if 'a' ≤ c ∧ c ≤ 'f' then some (c.toNat - 87)
  else if 'A' ≤ c ∧ c ≤ 'F' then some (c.toNat - 55)
  else none

/-- Prefix one decoded character onto a string-parse result. -/
def consStr (c : Char) : Option (List Char × List Char) → Option (List Char × List Char)
  | some (s, rest) => some (c :: s, rest)
  | none => none

/-- The character named by a single-letter escape. -/
def escDecode (e : Char) : Option Char :=
  if e = '"' then some '"'
  else if e = '\\' then some '\\'
  else if e = '/' then some '/'
  else if e = 'b' then some '\x08'
  else if e = 'f' then some '\x0c'
  else if e = 'n' then some '\n'
  else if e = 'r' then some '\r'
  else if e = 't' then some '\t'
  else none

/-- Value of the four hex digits of a `\u` escape. -/
def hexQuad (a b c d : Char) : Option Nat :=
  match hexVal a, hexVal b, hexVal c, hexVal d with
  | some x, some y, some z, some w => some (((x * 16 + y) * 16 + z) * 16 + w)
  | _, _, _, _ => none

/-- String-literal body parser: consumes up to and including the closing
quote, decoding escapes.  A `\u` escape naming a surrogate code unit is
rejected (a lone surrogate is not a Unicode scalar value and has no `Char`
representation; the printer never emits one). -/
def parseStrBody : List Char → Option (List Char × List Char)
  | [] => none
  | c :: cs =>
    if c = '"' then some ([], cs)
    else if c = '\\' then
      match cs with
      | [] => none
      | e :: cs1 =>
        if e = 'u' then
          match cs1 with
          | h1 :: h2 :: h3 :: h4 :: cs2 =>
            match hexQuad h1 h2 h3 h4 with
            | some n =>
              if n < 55296 ∨ 57344 ≤ n then consStr (Char.ofNat n) (parseStrBody cs2)
              else none
            | none => none
          | _ => none
        else
          match escDecode e with
          | some d => consStr d (parseStrBody cs1)
          | none => none
    else if c.toNat < 32 then none
    else consStr c (parseStrBody cs)

/-- Greedy decimal-digit reader with accumulator. -/
def parseDigits : List Char → Nat → Nat × List Char
  | [], acc => (acc, [])
  | c :: cs, acc =>
    if c.isDigit then parseDigits cs (acc * 10 + (c.toNat - 48)) else (acc, c :: cs)

def digitStart : List Char → Bool
  | [] => false
  | c :: _ => c.isDigit

/-- JSON natural-number literal: `0`, or a nonzero digit followed by digits
(no redundant leading zero). -/
def parseNatLit : List Char → Option (Nat × List Char)
  | [] => none
  | c :: cs =>
    if c = '0' then (if digitStart cs then none else some (0, cs))
    else if c.isDigit then some (parseDigits (c :: cs) 0)
    else none

def fracStart : List Char → Bool
  | [] => false
  | c :: _ => c = '.' ∨ c = 'e' ∨ c = 'E'

/-- JSON number literal restricted to integers: an optional minus sign and an
integer part; a following fraction or exponent makes the literal (and hence
the whole text) unparseable in this model. -/
def parseNumLit (cs0 : List Char) : Option (Int × List Char) :=
  match cs0 with
  | c :: cs =>
    if c = '-' then
      match parseNatLit cs with
      | some (n, rest) => if fracStart rest then none else some (-(n : Int), rest)
      | none => none
    else
      match parseNatLit (c :: cs) with
      | some (n, rest) => if fracStart rest then none else some ((n : Int), rest)
      | none => none
  | [] => none

/-- Member collection with JS assignment semantics, right-folded: a key that
also occurs later keeps this (first) position but takes the later (last)
value. -/
def combineField (k : List Char) (v : JVal) (fs : JFields) : JFields :=
  match fs.getKey? k with
  | some v' => .fcons k v' (fs.removeKey k)
  | none => .fcons k v fs

mutual
def parseVal : Nat → List Char → Option (JVal × List Char)
  | 0, _ => none
  | fuel + 1, cs0 =>
    match skipWs cs0 with
    | [] => none
    | c :: cs =>
      if c = '"' then
        match parseStrBody cs with
        | some (s, rest) => some (.str s, rest)
        | none => none
      else if c = '[' then
        match skipWs cs with
        | c1 :: rest =>
          if c1 = ']' then some (.arr .nil, rest)
          else match parseElems fuel (c1 :: rest) with
            | some (xs, rest1) => some (.arr xs, rest1)
            | none => none
        | [] => none
      else if c = lbrace then
        match skipWs cs with
        | c1 :: rest =>
          if c1 = rbrace then some (.obj .nil, rest)
          else match parseMembers fuel (c1 :: rest) with
            | some (fs, rest1) => some (.obj fs, rest1)
            | none => none
        | [] => none
      else if c = 't' then
        match cs with
        | 'r' :: 'u' :: 'e' :: rest => some (.bool true, rest)
        | _ => none
      else if c = 'f' then
        match cs with
        | 'a' :: 'l' :: 's' :: 'e' :: rest => some (.bool false, rest)
        | _ => none
      else if c = 'n' then
        match cs with
        | 'u' :: 'l' :: 'l' :: rest => some (.null, rest)
        | _ => none
      else if c = '-' ∨ c.isDigit then
        match parseNumLit (c :: cs) with
        | some (n, rest) => some (.num n, rest)
        | none => none
      else none
def parseElems : Nat → List Char → Option (JArr × List Char)
  | 0, _ => none
  | fuel + 1, cs =>
    match parseVal fuel cs with
    | some (v, rest) =>
      match skipWs rest with
      | ',' :: rest1 =>
        match parseElems fuel rest1 with
        | some (xs, rest2) => some (.cons v xs, rest2)
        | none => none
      | ']' :: rest1 => some (.cons v .nil, rest1)
      | _ => none
    | none => none
def parseMembers : Nat → List Char → Option (JFields × List Char)
  | 0, _ => none
  | fuel + 1, cs =>
    match skipWs cs with
    | '"' :: cs1 =>
      match parseStrBody cs1 with
      | some (k, rest) =>
        match skipWs rest with
        | ':' :: rest1 =>
          match parseVal fuel rest1 with
          | some (v, rest2) =>
            match skipWs rest2 with
            | ',' :: rest3 =>
              match parseMembers fuel rest3 with
              | some (fs, rest4) => some (combineField k v fs, rest4)
              | none => none
            | c2 :: rest3 =>
              if c2 = rbrace then some (.fcons k v .nil, rest3) else none
            | [] => none
          | none => none
        | _ => none
      | none => none
    | _ => none
end

/-- `JSON.parse`: parse one value, then require only whitespace to remain.
The fuel `length + 1` is sufficient: every recursive descent is preceded by
the consumption of at least one input character every two steps. -/
def parseJson (s : List Char) : Option JVal :=
  match parseVal (s.length + 1) s with
  | some (v, rest) => if skipWs rest = [] then some v else none
  | none => none

/-!
The reviver of `LmdStorage.mapify` runs bottom-up over the decoded tree: for
every decoded value with `typeof value === 'object' && value !== null` (plain
objects and arrays alike) it checks `value.hasOwnProperty(mapKey)` and, when
the check succeeds, replaces the value by `new Map(value[mapKey])`.  For an
array the own properties are its canonical index strings below its length and
the string `length`, so a sentinel such as `"0"` or `"length"` fires on
arrays too — this matters for the round-trip claims.  `new Map(x)` throws a
`TypeError` unless `x` is iterable with object entries; the `Except` error
value models that exception, which `mapify` catches, returning an empty Map.
A `Map` with a non-string key and an entry shorter than two elements (a JS
`Map` with `undefined` slots) are not representable here and are also modelled
as the error case; neither arises from serializer output, and every claim that
reaches them concludes with the same empty-Map fallback either way.
-/

/-- Whether a string is a canonical array-index property name: a digit string
with no redundant leading zero whose value is below `2 ^ 32 - 1`. -/
def isCanonicalIndex (s : List Char) : Bool :=
  match s with
  | [] => false
  | '0' :: rest => rest = []
  | c :: _ => c.isDigit ∧ s.all Char.isDigit ∧ (parseDigits s 0).1 < 4294967295

/-- The own property of a JS array named by `mk`, when there is one:
`length`, or the element at a canonical index below the length. -/
def arrOwnProp? (mk : List Char) (xs : JArr) : Option JVal :=
  if mk = ['l', 'e', 'n', 'g', 't', 'h'] then some (.num (xs.len : Int))
  else if isCanonicalIndex mk then xs.get? (parseDigits mk 0).1
  else none

/-- One step of `new Map(iterable)` for an array argument: each element must
itself be array-like; its slots 0 and 1 give the key and value, inserted with
`Map.set`.  A non-object element makes the construction throw. -/
def entriesOf : JArr → Except Unit JFields
  | .nil => .ok .nil
  | .cons (.arr (.cons (.str k) (.cons v _))) es =>
    match entriesOf es with
    | .ok fs => .ok (combineField k v fs)
    | .error e => .error e
  | .cons _ _ => .error ()

/-- `new Map(x)` for the revived property value `x`: an array of entries, a
`Map` (cloned), or the empty string (an empty iterable) succeed; `null` is
treated by the Map constructor as an absent iterable and yields an empty Map;
everything else throws. -/
def mapFrom : JVal → Except Unit JVal
  | .arr es =>
    match entriesOf es with
    | .ok fs => .ok (.map fs)
    | .error e => .error e
  | .map es => .ok (.map es)
  | .str [] => .ok (.map .nil)
  | .null => .ok (.map .nil)
  | _ => .error ()

mutual
def revive (mk : List Char) : JVal → Except Unit JVal
  | .obj fs =>
    match reviveFields mk fs with
    | .ok fs1 =>
      match fs1.getKey? mk with
      | some v => mapFrom v
      | none => .ok (.obj fs1)
    | .error e => .error e
  | .arr xs =>
    match reviveArr mk xs with
    | .ok xs1 =>
      match arrOwnProp? mk xs1 with
      | some v => mapFrom v
      | none => .ok (.arr xs1)
    | .error e => .error e
  | v => .ok v
def reviveArr (mk : List Char) : JArr → Except Unit JArr
  | .nil => .ok .nil
  | .cons x xs =>
    match revive mk x with
    | .ok x1 =>
      match reviveArr mk xs with
      | .ok xs1 => .ok (.cons x1 xs1)
      | .error e => .error e
    | .error e => .error e
def reviveFields (mk : List Char) : JFields → Except Unit JFields
  | .nil => .ok .nil
  | .fcons k v fs =>
    match revive mk v with
    | .ok v1 =>
      match reviveFields mk fs with
      | .ok fs1 => .ok (.fcons k v1 fs1)
      | .error e => .error e
    | .error e => .error e
end

/-- The argument of `LmdStorage.mapify`: the stored text, or the JS values
`undefined` (key never written) and `null` that `localStorage.getItem` can
produce. -/
inductive StrArg : Type where
  | undef : StrArg
  | nullv : StrArg
  | strv : List Char → StrArg
deriving DecidableEq

/-- `LmdStorage.mapify`: guard against `undefined`, `null` and the empty
string; then `JSON.parse` with the reviving transform, catching any exception;
finally return the result only when it is itself a `Map`.  Every failure path
yields a fresh empty `Map`. -/
def mapify (mk : List Char) (arg : StrArg) : JVal :=
  match arg with
  | .strv s =>
    if s = [] then .map .nil
    else
      match parseJson s with
      | some raw =>
        match revive mk raw with
        | .ok v => if v.isMap then v else .map .nil
        | .error _ => .map .nil
      | none => .map .nil
  | _ => .map .nil

/-!
The expiration calculator of `src/LmdCookies/LmdCookies.js`
(`LmdCookies.calcExpiresDate`).  A JS `Date` is its time value: milliseconds
since the Unix epoch.  The `setUTC...` methods recompose that time value from
its UTC calendar fields with one field replaced, normalizing overflow; the
functions below are the corresponding ECMAScript operations (`Day`,
`TimeWithinDay`, `HourFromTime`, `MakeDay`, `MakeTime`, `MakeDate`, and the
proleptic-Gregorian `YearFromTime`/`MonthFromTime`/`DateFromTime`, computed
here with the standard civil-from-days algorithm).  All divisions are floor
divisions (`Int.ediv` with the positive divisors used here), matching the
spec's `floor` and nonnegative `modulo`.
-/

def msPerSecond : Int := 1000
def msPerMinute : Int := 60000
def msPerHour : Int := 3600000
def msPerDay : Int := 86400000

def dayOf (t : Int) : Int := t / msPerDay
def timeWithinDay (t : Int) : Int := t % msPerDay
def hourOf (t : Int) : Int := (t / msPerHour) % 24
def minOf (t : Int) : Int := (t / msPerMinute) % 60
def secOf (t : Int) : Int := (t / msPerSecond) % 60
def msOf (t : Int) : Int := t % msPerSecond

def makeTime (h m s ms : Int) : Int := h * msPerHour + m * msPerMinute + s * msPerSecond + ms
def makeDate (day time : Int) : Int := day * msPerDay + time

def isLeapYear (y : Int) : Bool := (y % 4 = 0 ∧ y % 100 ≠ 0) ∨ y % 400 = 0

/-- ECMAScript `DayFromYear`: the day number of January 1 of year `y`. -/
def dayFromYear (y : Int) : Int :=
  365 * (y - 1970) + (y - 1969) / 4 - (y - 1901) / 100 + (y - 1601) / 400

/-- Days before month `m` (0-based) in a year of the given leapness. -/
def monthStartDays (leap : Bool) (m : Int) : Int :=
  let base : Int :=
    if m = 0 then 0 else if m = 1 then 31 else if m = 2 then 59
    else if m = 3 then 90 else if m = 4 then 120 else if m = 5 then 151
    else if m = 6 then 181 else if m = 7 then 212 else if m = 8 then 243
    else if m = 9 then 273 else if m = 10 then 304 else 334
  if leap ∧ 2 ≤ m then base + 1 else base

/-- ECMAScript `MakeDay`: the day number of year/month/date with month
overflow normalized into the year. -/
def makeDay (y m d : Int) : Int :=
  let ym := y + m / 12
  let mn := m % 12
  dayFromYear ym + monthStartDays (isLeapYear ym) mn + (d - 1)

/-- Civil date (year, 0-based month, day of month) of a day number: the
observable behaviour of `YearFromTime`, `MonthFromTime` and `DateFromTime`. -/
def civilFromDays (z0 : Int) : Int × Int × Int :=
  let z := z0 + 719468
  let era := z / 146097
  let doe := z - era * 146097
  let yoe := (doe - doe / 1460 + doe / 36524 - doe / 146096) / 365
  let y := yoe + era * 400
  let doy := doe - (365 * yoe + yoe / 4 - yoe / 100)
  let mp := (5 * doy + 2) / 153
  let d := doy - (153 * mp + 2) / 5 + 1
  let m := mp + (if mp < 10 then 3 else -9)
  (y + (if m ≤ 2 then 1 else 0), m - 1, d)

def yearOf (t : Int) : Int := (civilFromDays (dayOf t)).1
def monthOf (t : Int) : Int := (civilFromDays (dayOf t)).2.1
def dateOf (t : Int) : Int := (civilFromDays (dayOf t)).2.2

def setUTCFullYear (t y : Int) : Int :=
  makeDate (makeDay y (monthOf t) (dateOf t)) (timeWithinDay t)
def setUTCMonth (t m : Int) : Int :=
  makeDate (makeDay (yearOf t) m (dateOf t)) (timeWithinDay t)
def setUTCDate (t d : Int) : Int :=
  makeDate (makeDay (yearOf t) (monthOf t) d) (timeWithinDay t)
def setUTCHours (t h : Int) : Int :=
  makeDate (dayOf t) (makeTime h (minOf t) (secOf t) (msOf t))
def setUTCMinutes (t m : Int) : Int :=
  makeDate (dayOf t) (makeTime (hourOf t) m (secOf t) (msOf t))
def setUTCSeconds (t s : Int) : Int :=
  makeDate (dayOf t) (makeTime (hourOf t) (minOf t) s (msOf t))

/-- JS `\s` for the characters this model carries (space, tab, newline,
carriage return; the remaining Unicode space code points are not exercised by
any claim). -/
def isJsWs (c : Char) : Bool := isJsonWs c

/-- `expires.split(/\s+/).filter(val => val)`: the maximal whitespace-free
nonempty chunks of the input. -/
def splitWs : List Char → List (List Char)
  | [] => []
  | c :: cs =>
    if isJsWs c then splitWs cs
    else
      match splitWs cs with
      | [] => [[c]]
      | t :: ts =>
        match cs with
        | [] => [[c]]
        | c1 :: _ => if isJsWs c1 then [c] :: t :: ts else (c :: t) :: ts

/-- JS `\w`: ASCII letters, digits and underscore. -/
def isWordChar (c : Char) : Bool := c.isAlpha ∨ c.isDigit ∨ c = '_'

def takeWhileCs (p : Char → Bool) : List Char → List Char
  | [] => []
  | c :: cs => if p c then c :: takeWhileCs p cs else []

def dropWhileCs (p : Char → Bool) : List Char → List Char
  | [] => []
  | c :: cs => if p c then dropWhileCs p cs else c :: cs

/-- Leftmost match of the token pattern `(\d+)(\w+)` (as in
`token.match(/(\d+)(\w+)/i)`): scan for the first digit; the greedy digit run
becomes group 1 when at least one word character follows, with group 2 the
greedy word-character run; otherwise the engine backtracks, giving the last
digit of a multi-digit run to group 2; a lone digit with no word character
after it cannot match, and scanning resumes behind it.  Returns the two
captured groups, or `none` when the token has no match (in which case the
destructuring in `calcExpiresDate` throws a `TypeError`). -/
def findTokenMatch : List Char → Option (List Char × List Char)
  | [] => none
  | c :: cs =>
    if c.isDigit then
      let run := c :: takeWhileCs Char.isDigit cs
      let rest := dropWhileCs Char.isDigit cs
      match rest with
      | r :: rs =>
        if isWordChar r then some (run, r :: takeWhileCs isWordChar rs)
        else if run.length ≥ 2 then some (run.dropLast, [run.getLast (by simp [run])])
        else findTokenMatch cs
      | [] =>
        if run.length ≥ 2 then some (run.dropLast, [run.getLast (by simp [run])])
        else findTokenMatch cs
    else findTokenMatch cs

/-- `parseInt` on the digit group captured by the token pattern. -/
def parseIntDigits (ds : List Char) : Int := ((parseDigits ds 0).1 : Int)

def tokY : List Char := ['Y']
def tokM : List Char := ['M']
def tokD : List Char := ['D']
def tokH : List Char := ['H']
def tokMI : List Char := ['M', 'I']
def tokS : List Char := ['S']
def tokW : List Char := ['W']

/-- One iteration of the token loop of `LmdCookies.calcExpiresDate`: match the
token, upper-case the unit code, dispatch on the exact code (the two-letter
`MI` is its own `switch` case, distinct from `M`), ignore unknown codes.  A
token the pattern does not match at all makes the destructuring of `null`
throw a `TypeError`, modelled as the error case. -/
def applyToken (now : Int) (token : List Char) : Except Unit Int :=
  match findTokenMatch token with
  | none => .error ()
  | some (ds, tokRaw) =>
    let tok := tokRaw.map Char.toUpper
    let num := parseIntDigits ds
    if tok = tokY then .ok (setUTCFullYear now (yearOf now + num))
    else if tok = tokM then .ok (setUTCMonth now (monthOf now + num))
    else if tok = tokD then .ok (setUTCDate now (dateOf now + num))
    else if tok = tokH then .ok (setUTCHours now (hourOf now + num))
    else if tok = tokMI then .ok (setUTCMinutes now (minOf now + num))
    else if tok = tokS then .ok (setUTCSeconds now (secOf now + num))
    else if tok = tokW then .ok (setUTCDate now (dateOf now + num * 7))
    else .ok now

def applyTokens (now : Int) : List (List Char) → Except Unit Int
  | [] => .ok now
  | t :: ts =>
    match applyToken now t with
    | .ok now1 => applyTokens now1 ts
    | .error e => .error e

/-- `LmdCookies.calcExpiresDate` on a string argument, up to the final
`toUTCString` formatting: split on whitespace and drop empty chunks; when no
tokens remain, add one calendar year to the current time; otherwise run the
token loop, whose `TypeError` on an unmatchable token propagates out of the
function (the `Except` error). -/
def calcExpiresDate (now : Int) (expires : List Char) : Except Unit Int :=
  let tokens := splitWs expires
  match tokens with
  | [] => .ok (setUTCFullYear now (yearOf now + 1))
  | t :: ts => applyTokens now (t :: ts)

/-- The `expires` argument of `LmdCookies.set`: a `Date` object or a string. -/
inductive ExpiresArg : Type where
  | date : Int → ExpiresArg
  | strv : List Char → ExpiresArg
deriving DecidableEq

def sessionChars : List Char := ['s', 'e', 's', 's', 'i', 'o', 'n']

/-- The full `calcExpiresDate` including its `Date` fast path: a `Date`
argument is returned verbatim (formatted by `toUTCString`, which is injective
on time values at second granularity and not modelled further). -/
def calcExpiresDateArg (now : Int) : ExpiresArg → Except Unit Int
  | .date d => .ok d
  | .strv s => calcExpiresDate now s

/-- The expires attribute `LmdCookies.set` emits: `set` appends
`; expires=...` exactly when the argument differs from the literal string
`'session'`, computing the date with `calcExpiresDate`.  `none` means the
attribute is omitted (a session cookie). -/
def setExpiresAttr (now : Int) (e : ExpiresArg) : Except Unit (Option Int) :=
  if e = .strv sessionChars then .ok none
  else
    match calcExpiresDateArg now e with
    | .ok d => .ok (some d)
    | .error er => .error er

/-!
The stateful surface of `LmdStorage` (version 1.3.1).  A store's observable
state is its in-memory `Map` (`data`), the `localStorage` slot it persists to
(`slot`; `none` when the key is absent, in which case `getItem` returns
`null`), and — so that the write-count claims are statable — the list of
texts written to the slot so far (`log`).  `setStore` is modelled as the
successful write; storage-unavailability (its `try`/`catch`) is environment
nondeterminism outside these claims.
-/

structure StoreState where
  data : JFields
  slot : Option (List Char)
  log : List (List Char)
deriving DecidableEq

/-- `LmdStorage.setStore`: persist the serialization of the data `Map`. -/
def setStore (mk : List Char) (s : StoreState) : StoreState :=
  let text := jsonify mk (.map s.data)
  { s with slot := some text, log := s.log ++ [text] }

/-- The stored text as `mapify` receives it after `localStorage.getItem`. -/
def slotArg (s : StoreState) : StrArg :=
  match s.slot with
  | some text => .strv text
  | none => .nullv

/-- `LmdStorage.getStore`: read the slot and deserialize. -/
def getStore (mk : List Char) (s : StoreState) : JVal :=
  mapify mk (slotArg s)

/-- `LmdStorage.getItems`: a deep copy of the data, produced by serializing
and immediately deserializing it. -/
def getItems (mk : List Char) (s : StoreState) : JVal :=
  mapify mk (.strv (jsonify mk (.map s.data)))

/-- `LmdStorage.setItem`. -/
def setItem (mk : List Char) (k : List Char) (v : JVal) (noSave : Bool) (s : StoreState) : StoreState :=
  let s1 := { s with data := s.data.setEntry k v }
  if noSave then s1 else setStore mk s1

/-- `LmdStorage.setItems`: assign every own property of the argument object,
then persist once — only when at least one property was assigned and saving
is not deferred. -/
def setItems (mk : List Char) (objData : List (List Char × JVal)) (noSave : Bool) (s : StoreState) : StoreState :=
  let s1 := { s with data := s.data.setAll objData }
  if 0 < objData.length ∧ ¬noSave then setStore mk s1 else s1

/-- `LmdStorage.removeItem`: delete the key and persist only when the delete
found it (and saving is not deferred). -/
def removeItem (mk : List Char) (k : List Char) (noSave : Bool) (s : StoreState) : StoreState :=
  if s.data.hasKey k then
    let s1 := { s with data := s.data.removeKey k }
    if noSave then s1 else setStore mk s1
  else s

/-- `LmdStorage.saveAll` with no replacement argument: persist the data, then
re-read the slot (the re-read's result is discarded by the source, so it does
not change the state). -/
def saveAll (mk : List Char) (s : StoreState) : StoreState :=
  setStore mk s

/-- A batch of deferred-save mutations: the `setItem`/`setItems` calls of the
noSave-batching claim. -/
inductive BatchOp : Type where
  | one : List Char → JVal → BatchOp
  | many : List (List Char × JVal) → BatchOp

def applyBatchOp (mk : List Char) (s : StoreState) : BatchOp → StoreState
  | .one k v => setItem mk k v true s
  | .many kvs => setItems mk kvs true s

def applyBatch (mk : List Char) (s : StoreState) : List BatchOp → StoreState
  | [] => s
  | op :: ops => applyBatch mk (applyBatchOp mk s op) ops

/-- The key/value pairs a batch assigns, in execution order. -/
def batchPairs : List BatchOp → List (List Char × JVal)
  | [] => []
  | .one k v :: ops => (k, v) :: batchPairs ops
  | .many kvs :: ops => kvs ++ batchPairs ops

/-- The last value a batch assigns to a key, if any. -/
def lastAssign (k : List Char) : List (List Char × JVal) → Option JVal
  | [] => none
  | (k1, v) :: rest =>
    match lastAssign k rest with
    | some v' => some v'
    | none => if k1 = k then some v else none

/-!
Well-formedness.  `wfVal mk v` says that `v` is JSON-representable (no `func`
anywhere), that every `Map` and object has unique keys (a JS invariant), and
that no plain object owns the sentinel key `mk`.  `goodSentinel mk` says that
`mk` is not an own-property name of JS arrays (`length` or a canonical index),
so the reviver's `hasOwnProperty` check cannot fire on an array.
-/

def lengthChars : List Char := ['l', 'e', 'n', 'g', 't', 'h']

def goodSentinel (mk : List Char) : Bool :=
  ¬(mk = lengthChars) ∧ ¬(isCanonicalIndex mk = true)

def keysNodup : JFields → Bool
  | .nil => true
  | .fcons k _ fs => ¬(fs.hasKey k = true) ∧ keysNodup fs

mutual
def wfVal (mk : List Char) : JVal → Bool
  | .null => true
  | .bool _ => true
  | .num _ => true
  | .str _ => true
  | .arr xs => wfArr mk xs
  | .obj fs => ¬(fs.hasKey mk = true) ∧ keysNodup fs ∧ wfFields mk fs
  | .map es => keysNodup es ∧ wfFields mk es
  | .func => false
def wfArr (mk : List Char) : JArr → Bool
  | .nil => true
  | .cons x xs => wfVal mk x ∧ wfArr mk xs
def wfFields (mk : List Char) : JFields → Bool
  | .nil => true
  | .fcons _ v fs => wfVal mk v ∧ wfFields mk fs
end

/- The shape of every tree `rawOf` produces from a well-formed value:
no `Map`, no `func`, and unique keys in every object. -/
mutual
def rawOk : JVal → Bool
  | .null => true
  | .bool _ => true
  | .num _ => true
  | .str _ => true
  | .arr xs => rawOkArr xs
  | .obj fs => keysNodup fs ∧ rawOkFields fs
  | .map _ => false
  | .func => false
def rawOkArr : JArr → Bool
  | .nil => true
  | .cons x xs => rawOk x ∧ rawOkArr xs
def rawOkFields : JFields → Bool
  | .nil => true
  | .fcons _ v fs => rawOk v ∧ rawOkFields fs
end

/- Fuel lower bound for the parser on a printed value. -/
mutual
def sizeV : JVal → Nat
  | .null => 1
  | .bool _ => 1
  | .num _ => 1
  | .str _ => 1
  | .arr xs => 1 + sizeA xs
  | .obj fs => 1 + sizeF fs
  | .map es => 1 + sizeF es
  | .func => 1
def sizeA : JArr → Nat
  | .nil => 0
  | .cons x xs => 1 + sizeV x + sizeA xs
def sizeF : JFields → Nat
  | .nil => 0
  | .fcons _ v fs => 1 + sizeV v + sizeF fs
end

/-- The rendering of a raw value, with the array-slot fallback that
`JSON.stringify` uses for unserializable elements. -/
def printR (v : JVal) : List Char := (printRaw v).getD nullChars

/-- Text that may legally follow a printed value inside a bigger printed
text: nothing, or a separator or closer. -/
def delimOk : List Char → Bool
  | [] => true
  | c :: _ => c = ',' ∨ c = ']' ∨ c = rbrace

theorem char_ne_of_toNat {c d : Char} (h : c.toNat ≠ d.toNat) : c ≠ d :=
  fun e => h (congrArg Char.toNat e)

theorem digit_toNat {c : Char} (h : c.isDigit = true) : 48 ≤ c.toNat ∧ c.toNat ≤ 57 := by
  simp [Char.isDigit] at h
  exact h

theorem toNat_quote : ('"').toNat = 34 := by decide
theorem toNat_minus : ('-').toNat = 45 := by decide
theorem toNat_lbrack : ('[').toNat = 91 := by decide
theorem toNat_rbrack : (']').toNat = 93 := by decide
theorem toNat_lbrace : lbrace.toNat = 123 := by decide
theorem toNat_rbrace : rbrace.toNat = 125 := by decide

theorem digit_ne {c : Char} (h : c.isDigit = true) (m : Nat) (hm : ¬(48 ≤ m ∧ m ≤ 57))
    {d : Char} (hd : d.toNat = m) : c ≠ d := by
  have hb := digit_toNat h
  exact char_ne_of_toNat (by omega)

theorem digit_not_ws {c : Char} (h : c.isDigit = true) : isJsonWs c = false := by
  have hb := digit_toNat h
  simp [isJsonWs]
  omega

theorem skipWs_cons {c : Char} (h : isJsonWs c = false) (cs : List Char) :
    skipWs (c :: cs) = c :: cs := by
  simp [skipWs, h]

/-- Facts about decimal digit characters. -/
theorem digChar_isDigit {n : Nat} (h : n < 10) : (digChar n).isDigit = true := by
  interval_cases n <;> decide

theorem digChar_toNat {n : Nat} (h : n < 10) : (digChar n).toNat = 48 + n := by
  interval_cases n <;> decide

theorem digChar_ne_zero {n : Nat} (h0 : 1 ≤ n) (h : n < 10) : digChar n ≠ '0' := by
  interval_cases n <;> decide

/-!
Decimal printing reads back: the digits `natDigits n` parse to `n`.
-/

theorem natDigitsAux_irrel : ∀ (f1 f2 n : Nat), n < f1 → n < f2 →
    natDigitsAux f1 n = natDigitsAux f2 n := by
  intro f1
  induction f1 using Nat.strong_induction_on with
  | _ f1 ih =>
    intro f2 n h1 h2
    match f1, f2 with
    | g1 + 1, g2 + 1 =>
      simp only [natDigitsAux]
      by_cases hlt : n < 10
      · simp [hlt]
      · simp only [hlt, if_false]
        have hd : n / 10 < g1 := by omega
        have hd2 : n / 10 < g2 := by omega
        rw [ih g1 (by omega) g2 (n / 10) hd hd2]

theorem natDigits_big {n : Nat} (h : ¬(n < 10)) :
    natDigits n = natDigits (n / 10) ++ [digChar (n % 10)] := by
  show natDigitsAux (n + 1) n = _
  simp only [natDigitsAux, h, if_false]
  rw [natDigitsAux_irrel n (n / 10 + 1) (n / 10) (by omega) (by omega)]
  rfl

theorem natDigits_small {n : Nat} (h : n < 10) : natDigits n = [digChar n] := by
  show natDigitsAux (n + 1) n = _
  simp [natDigitsAux, h]

theorem natDigits_ne_nil (n : Nat) : natDigits n ≠ [] := by
  induction n using Nat.strong_induction_on with
  | _ n ih =>
    by_cases h : n < 10
    · simp [natDigits_small h]
    · simp [natDigits_big h]

theorem natDigits_all_digit (n : Nat) : (natDigits n).all Char.isDigit = true := by
  induction n using Nat.strong_induction_on with
  | _ n ih =>
    by_cases h : n < 10
    · simp [natDigits_small h, digChar_isDigit h]
    · rw [natDigits_big h]
      simp only [List.all_append, List.all_cons, List.all_nil, Bool.and_eq_true]
      refine ⟨ih (n / 10) (by omega), digChar_isDigit (by omega), trivial⟩

theorem natDigits_head_ne_zero {n : Nat} (h : 1 ≤ n) :
    ∃ c t, natDigits n = c :: t ∧ c.isDigit = true ∧ c ≠ '0' := by
  induction n using Nat.strong_induction_on with
  | _ n ih =>
    by_cases hs : n < 10
    · exact ⟨digChar n, [], by simp [natDigits_small hs], digChar_isDigit hs,
        digChar_ne_zero h hs⟩
    · obtain ⟨c, t, he, hd, hz⟩ := ih (n / 10) (by omega) (by omega)
      exact ⟨c, t ++ [digChar (n % 10)], by simp [natDigits_big hs, he], hd, hz⟩

/-- The accumulator semantics of `parseDigits` on an all-digit block. -/
def foldDigits (acc : Nat) (ds : List Char) : Nat :=
  ds.foldl (fun a c => a * 10 + (c.toNat - 48)) acc

theorem parseDigits_block : ∀ (ds : List Char) (r : List Char) (acc : Nat),
    ds.all Char.isDigit = true →
    parseDigits (ds ++ r) acc = parseDigits r (foldDigits acc ds) := by
  intro ds
  induction ds with
  | nil => intro r acc _; rfl
  | cons c t ih =>
    intro r acc hall
    simp only [List.all_cons, Bool.and_eq_true] at hall
    simp only [List.cons_append, parseDigits, hall.1, if_true, List.append_eq]
    rw [ih r _ hall.2]
    rfl

theorem parseDigits_stop {r : List Char} (h : digitStart r = false) (acc : Nat) :
    parseDigits r acc = (acc, r) := by
  match r with
  | [] => rfl
  | c :: t =>
    simp only [digitStart] at h
    simp [parseDigits, h]

theorem foldDigits_natDigits (n : Nat) : ∀ acc : Nat,
    foldDigits acc (natDigits n) = acc * 10 ^ (natDigits n).length + n := by
  induction n using Nat.strong_induction_on with
  | _ n ih =>
    intro acc
    by_cases h : n < 10
    · rw [natDigits_small h]
      simp [foldDigits, digChar_toNat h]
    · rw [natDigits_big h]
      simp only [foldDigits, List.foldl_append, List.foldl_cons, List.foldl_nil]
      have hrec := ih (n / 10) (by omega) acc
      simp only [foldDigits] at hrec
      rw [hrec]
      simp only [List.length_append, List.length_cons, List.length_nil]
      rw [digChar_toNat (by omega : n % 10 < 10)]
      ring_nf
      omega

theorem parseNatLit_natDigits {r : List Char} (h : digitStart r = false) (n : Nat) :
    parseNatLit (natDigits n ++ r) = some (n, r) := by
  by_cases h0 : n = 0
  · subst h0
    rw [natDigits_small (by omega)]
    show parseNatLit ('0' :: r) = some (0, r)
    simp [parseNatLit, h]
  · obtain ⟨c, t, he, hd, hz⟩ := natDigits_head_ne_zero (by omega : 1 ≤ n)
    rw [he, List.cons_append]
    show parseNatLit (c :: (t ++ r)) = some (n, r)
    simp only [parseNatLit, hz, if_false, hd, if_true]
    rw [show c :: (t ++ r) = (c :: t) ++ r from rfl, ← he]
    rw [parseDigits_block _ _ _ (natDigits_all_digit n), parseDigits_stop h]
    have hv := foldDigits_natDigits n 0
    simp only [Nat.zero_mul, Nat.zero_add] at hv
    rw [hv]

theorem digitStart_append_digits {n : Nat} {r : List Char} :
    digitStart (natDigits n ++ r) = true := by
  by_cases h : n < 10
  · simp [natDigits_small h, digitStart, digChar_isDigit h]
  · obtain ⟨c, t, he, hd, _⟩ := natDigits_head_ne_zero (by omega : 1 ≤ n)
    simp [he, digitStart, hd]

theorem parseNumLit_intChars {r : List Char} (hd : digitStart r = false)
    (hf : fracStart r = false) (n : Int) :
    parseNumLit (intChars n ++ r) = some (n, r) := by
  match n with
  | .ofNat m =>
    show parseNumLit (natDigits m ++ r) = some (Int.ofNat m, r)
    by_cases h0 : m = 0
    · subst h0
      rw [natDigits_small (by omega)]
      show parseNumLit ('0' :: r) = _
      have : parseNatLit ('0' :: r) = some (0, r) := by simp [parseNatLit, hd]
      simp [parseNumLit, this, hf]
    · obtain ⟨c, t, he, hdig, hz⟩ := natDigits_head_ne_zero (by omega : 1 ≤ m)
      rw [he, List.cons_append]
      have hcm : c ≠ '-' := digit_ne hdig 45 (by omega) toNat_minus
      show parseNumLit (c :: (t ++ r)) = _
      simp only [parseNumLit, hcm, if_false]
      rw [show c :: (t ++ r) = (c :: t) ++ r from rfl, ← he]
      rw [parseNatLit_natDigits hd]
      simp [hf]
  | .negSucc m =>
    show parseNumLit ('-' :: (natDigits (m + 1) ++ r)) = _
    simp only [parseNumLit, if_pos rfl]
    rw [parseNatLit_natDigits hd]
    simp only [hf, if_false]
    rw [Int.negSucc_eq]
    norm_num

theorem hexVal_hexChar {m : Nat} (h : m < 16) : hexVal (hexChar m) = some m := by
  interval_cases m <;> decide

theorem psb_close (r : List Char) : parseStrBody ('"' :: r) = some ([], r) := by
  rw [parseStrBody.eq_def]; simp

theorem psb_esc_quote (cs : List Char) :
    parseStrBody ('\\' :: '"' :: cs) = consStr '"' (parseStrBody cs) := by
  rw [parseStrBody.eq_def]; simp [escDecode]

theorem psb_esc_back (cs : List Char) :
    parseStrBody ('\\' :: '\\' :: cs) = consStr '\\' (parseStrBody cs) := by
  rw [parseStrBody.eq_def]; simp [escDecode]

theorem psb_esc_b (cs : List Char) :
    parseStrBody ('\\' :: 'b' :: cs) = consStr '\x08' (parseStrBody cs) := by
  rw [parseStrBody.eq_def]; simp [escDecode]

theorem psb_esc_t (cs : List Char) :
    parseStrBody ('\\' :: 't' :: cs) = consStr '\t' (parseStrBody cs) := by
  rw [parseStrBody.eq_def]; simp [escDecode]

theorem psb_esc_n (cs : List Char) :
    parseStrBody ('\\' :: 'n' :: cs) = consStr '\n' (parseStrBody cs) := by
  rw [parseStrBody.eq_def]; simp [escDecode]

theorem psb_esc_f (cs : List Char) :
    parseStrBody ('\\' :: 'f' :: cs) = consStr '\x0c' (parseStrBody cs) := by
  rw [parseStrBody.eq_def]; simp [escDecode]

theorem psb_esc_r (cs : List Char) :
    parseStrBody ('\\' :: 'r' :: cs) = consStr '\r' (parseStrBody cs) := by
  rw [parseStrBody.eq_def]; simp [escDecode]

theorem psb_lit {c : Char} (h1 : c ≠ '"') (h2 : c ≠ '\\') (h3 : ¬(c.toNat < 32))
    (cs : List Char) : parseStrBody (c :: cs) = consStr c (parseStrBody cs) := by
  rw [parseStrBody.eq_def]; simp [h1, h2, h3]

theorem psb_u {x y : Char} {dx dy : Nat} (hx : hexVal x = some dx) (hy : hexVal y = some dy)
    (hlt : dx * 16 + dy < 55296) (cs : List Char) :
    parseStrBody ('\\' :: 'u' :: '0' :: '0' :: x :: y :: cs) =
      consStr (Char.ofNat (dx * 16 + dy)) (parseStrBody cs) := by
  have h0 : hexVal '0' = some 0 := by decide
  have hq : hexQuad '0' '0' x y = some (dx * 16 + dy) := by
    simp [hexQuad, hx, hy, h0]
  rw [parseStrBody.eq_def]
  simp [hq, hlt]

/-- Decoding inverts `JSON.stringify` string escaping, one character at a
time. -/
theorem parseStrBody_escBody : ∀ (s r : List Char),
    parseStrBody (escBody s ++ '"' :: r) = some (s, r) := by
  intro s
  induction s with
  | nil => intro r; exact psb_close r
  | cons c t ih =>
    intro r
    show parseStrBody ((escChar c ++ escBody t) ++ '"' :: r) = some (c :: t, r)
    rw [List.append_assoc]
    by_cases h1 : c = '"'
    · subst h1; rw [show escChar '"' = ['\\', '"'] from rfl]
      simp [psb_esc_quote, ih r, consStr]
    · by_cases h2 : c = '\\'
      · subst h2; rw [show escChar '\\' = ['\\', '\\'] from rfl]
        simp [psb_esc_back, ih r, consStr]
      · by_cases h3 : c = '\x08'
        · subst h3; rw [show escChar '\x08' = ['\\', 'b'] from rfl]
          simp [psb_esc_b, ih r, consStr]
        · by_cases h4 : c = '\t'
          · subst h4; rw [show escChar '\t' = ['\\', 't'] from rfl]
            simp [psb_esc_t, ih r, consStr]
          · by_cases h5 : c = '\n'
            · subst h5; rw [show escChar '\n' = ['\\', 'n'] from rfl]
              simp [psb_esc_n, ih r, consStr]
            · by_cases h6 : c = '\x0c'
              · subst h6; rw [show escChar '\x0c' = ['\\', 'f'] from rfl]
                simp [psb_esc_f, ih r, consStr]
              · by_cases h7 : c = '\r'
                · subst h7; rw [show escChar '\r' = ['\\', 'r'] from rfl]
                  simp [psb_esc_r, ih r, consStr]
                · by_cases h8 : c.toNat < 32
                  · have hne : escChar c =
                        ['\\', 'u', '0', '0', hexChar (c.toNat / 16), hexChar (c.toNat % 16)] := by
                      simp [escChar, h1, h2, h3, h4, h5, h6, h7, h8]
                    rw [hne]
                    have hstep := psb_u (hexVal_hexChar (by omega : c.toNat / 16 < 16))
                      (hexVal_hexChar (by omega : c.toNat % 16 < 16))
                      (by omega) (escBody t ++ '"' :: r)
                    simp only [List.cons_append, List.nil_append]
                    rw [hstep, ih r]
                    have hv : c.toNat / 16 * 16 + c.toNat % 16 = c.toNat := by
                      omega
                    rw [hv, Char.ofNat_toNat]
                    rfl
                  · have hne : escChar c = [c] := by
                      simp [escChar, h1, h2, h3, h4, h5, h6, h7, h8]
                    rw [hne]
                    simp only [List.cons_append, List.nil_append]
                    rw [psb_lit h1 h2 h8, ih r]
                    rfl

/-!
Preparation for the print-parse round trip on raw (Map-free) trees.
-/

theorem printRaw_some {v : JVal} (h : rawOk v = true) : printRaw v = some (printR v) := by
  cases v with
  | null => rfl
  | bool b => cases b <;> rfl
  | num n => simp [printRaw, printR]
  | str s => simp [printRaw, printR]
  | arr xs => simp [printRaw, printR]
  | obj fs => simp [printRaw, printR]
  | map es => simp [rawOk] at h
  | func => simp [rawOk] at h

theorem printR_null : printR .null = nullChars := rfl
theorem printR_true : printR (.bool true) = trueChars := rfl
theorem printR_false : printR (.bool false) = falseChars := rfl

theorem printR_num (n : Int) : printR (.num n) = intChars n := by
  simp [printR, printRaw]

theorem printR_str (s : List Char) : printR (.str s) = escStr s := by
  simp [printR, printRaw]

theorem printR_arr (xs : JArr) : printR (.arr xs) = '[' :: joinComma (elemStrs xs) ++ [']'] := by
  simp [printR, printRaw]

theorem printR_obj (fs : JFields) :
    printR (.obj fs) = lbrace :: joinComma (fieldStrs fs) ++ [rbrace] := by
  simp [printR, printRaw]

theorem elemStrs_nil : elemStrs .nil = [] := by simp [elemStrs]

theorem elemStrs_cons (x : JVal) (xs : JArr) :
    elemStrs (.cons x xs) = printR x :: elemStrs xs := by
  rw [elemStrs]
  simp [printR]

theorem fieldStrs_nil : fieldStrs .nil = [] := by simp [fieldStrs]

theorem fieldStrs_cons {v : JVal} (h : rawOk v = true) (k : List Char) (fs : JFields) :
    fieldStrs (.fcons k v fs) = (escStr k ++ ':' :: printR v) :: fieldStrs fs := by
  rw [fieldStrs]
  rw [printRaw_some h]

def goodStart (c : Char) : Bool :=
  c = '"' ∨ c = '[' ∨ c = lbrace ∨ c = 't' ∨ c = 'f' ∨ c = 'n' ∨ c = '-' ∨ c.isDigit

theorem natDigits_head (m : Nat) : ∃ c t, natDigits m = c :: t ∧ c.isDigit = true := by
  by_cases h : m = 0
  · subst h; exact ⟨'0', [], by rw [natDigits_small (by omega)]; rfl, by decide⟩
  · obtain ⟨c, t, he, hd, _⟩ := natDigits_head_ne_zero (by omega : 1 ≤ m)
    exact ⟨c, t, he, hd⟩

theorem printR_head {v : JVal} (h : rawOk v = true) :
    ∃ c t, printR v = c :: t ∧ goodStart c = true := by
  cases v with
  | null => exact ⟨'n', _, rfl, by decide⟩
  | bool b =>
    cases b with
    | false => exact ⟨'f', _, rfl, by decide⟩
    | true => exact ⟨'t', _, rfl, by decide⟩
  | num n =>
    rw [printR_num]
    match n with
    | .ofNat m =>
      obtain ⟨c, t, he, hd⟩ := natDigits_head m
      exact ⟨c, t, by simp [intChars, he], by simp [goodStart, hd]⟩
    | .negSucc m => exact ⟨'-', _, rfl, by decide⟩
  | str s => exact ⟨'"', _, by rw [printR_str]; rfl, by decide⟩
  | arr xs =>
    exact ⟨'[', joinComma (elemStrs xs) ++ [']'], by simp [printR_arr], by decide⟩
  | obj fs =>
    exact ⟨lbrace, joinComma (fieldStrs fs) ++ [rbrace], by simp [printR_obj], by decide⟩
  | map es => simp [rawOk] at h
  | func => simp [rawOk] at h

theorem goodStart_facts {c : Char} (h : goodStart c = true) :
    isJsonWs c = false ∧ c ≠ ']' ∧ c ≠ rbrace := by
  simp only [goodStart, Bool.decide_or, Bool.or_eq_true, decide_eq_true_eq] at h
  rcases h with h | h | h | h | h | h | h | h
  all_goals first
    | (subst h; exact ⟨by decide, by decide, by decide⟩)
    | (exact ⟨digit_not_ws h, digit_ne h 93 (by omega) toNat_rbrack,
        digit_ne h 125 (by omega) toNat_rbrace⟩)

theorem delimOk_facts {r : List Char} (h : delimOk r = true) :
    digitStart r = false ∧ fracStart r = false := by
  match r with
  | [] => exact ⟨rfl, rfl⟩
  | c :: t =>
    simp only [delimOk, Bool.decide_or, Bool.or_eq_true, decide_eq_true_eq] at h
    rcases h with h | h | h <;> subst h <;> exact ⟨rfl, rfl⟩

theorem combineField_new {fs : JFields} {k : List Char} (h : fs.hasKey k = false)
    (v : JVal) : combineField k v fs = .fcons k v fs := by
  unfold JFields.hasKey at h
  cases hg : fs.getKey? k with
  | some w => rw [hg] at h; simp at h
  | none => simp [combineField, hg]

theorem parseVal_print_null (f : Nat) (r : List Char) :
    parseVal (f + 1) (nullChars ++ r) = some (.null, r) := by
  rw [parseVal.eq_def]
  simp [nullChars, skipWs_cons (by decide : isJsonWs 'n' = false),
    (by decide : ('n' : Char) ≠ lbrace)]

theorem parseVal_print_true (f : Nat) (r : List Char) :
    parseVal (f + 1) (trueChars ++ r) = some (.bool true, r) := by
  rw [parseVal.eq_def]
  simp [trueChars, skipWs_cons (by decide : isJsonWs 't' = false),
    (by decide : ('t' : Char) ≠ lbrace)]

theorem parseVal_print_false (f : Nat) (r : List Char) :
    parseVal (f + 1) (falseChars ++ r) = some (.bool false, r) := by
  rw [parseVal.eq_def]
  simp [falseChars, skipWs_cons (by decide : isJsonWs 'f' = false),
    (by decide : ('f' : Char) ≠ lbrace)]

theorem parseVal_print_str (s : List Char) (f : Nat) (r : List Char) :
    parseVal (f + 1) (escStr s ++ r) = some (.str s, r) := by
  have hshape : escStr s ++ r = '"' :: (escBody s ++ '"' :: r) := by
    simp [escStr]
  rw [hshape, parseVal.eq_def]
  simp [skipWs_cons (by decide : isJsonWs '"' = false), parseStrBody_escBody]

theorem parseVal_print_num (n : Int) (f : Nat) (r : List Char)
    (hds : digitStart r = false) (hfs : fracStart r = false) :
    parseVal (f + 1) (intChars n ++ r) = some (.num n, r) := by
  have hnum := parseNumLit_intChars hds hfs n
  match n with
  | .ofNat m =>
    obtain ⟨c, t, he, hd⟩ := natDigits_head m
    have htext : intChars (.ofNat m) = c :: t := by simpa [intChars] using he
    rw [htext, List.cons_append, parseVal.eq_def]
    have h1 : c ≠ '"' := digit_ne hd 34 (by omega) toNat_quote
    have h2 : c ≠ '[' := digit_ne hd 91 (by omega) toNat_lbrack
    have h3 : c ≠ lbrace := digit_ne hd 123 (by omega) toNat_lbrace
    have h4 : c ≠ 't' := digit_ne hd 116 (by omega) (by decide)
    have h5 : c ≠ 'f' := digit_ne hd 102 (by omega) (by decide)
    have h6 : c ≠ 'n' := digit_ne hd 110 (by omega) (by decide)
    rw [htext, List.cons_append] at hnum
    simp [skipWs_cons (digit_not_ws hd), h1, h2, h3, h4, h5, h6, hd, hnum]
  | .negSucc m =>
    have htext : intChars (.negSucc m) = '-' :: natDigits (m + 1) := rfl
    rw [htext, List.cons_append, parseVal.eq_def]
    rw [htext, List.cons_append] at hnum
    simp [skipWs_cons (by decide : isJsonWs '-' = false),
      (by decide : ('-' : Char) ≠ lbrace), hnum]

theorem parseVal_arr_empty (f : Nat) (r : List Char) :
    parseVal (f + 1) ('[' :: ']' :: r) = some (.arr .nil, r) := by
  rw [parseVal.eq_def]
  simp [skipWs_cons (by decide : isJsonWs '[' = false),
    skipWs_cons (by decide : isJsonWs ']' = false),
    (by decide : ('[' : Char) ≠ lbrace)]

theorem parseVal_arr_nonempty (f : Nat) {cs : List Char} {c : Char} {t : List Char}
    (hb : cs = c :: t) (hgs : goodStart c = true) :
    parseVal (f + 1) ('[' :: cs) =
      (match parseElems f cs with
       | some (xs, rest1) => some (JVal.arr xs, rest1)
       | none => none) := by
  subst hb
  obtain ⟨hws, hne, _⟩ := goodStart_facts hgs
  rw [parseVal.eq_def]
  simp [skipWs_cons (by decide : isJsonWs '[' = false), skipWs_cons hws,
    (by decide : ('[' : Char) ≠ lbrace), hne]

theorem parseVal_obj_empty (f : Nat) (r : List Char) :
    parseVal (f + 1) (lbrace :: rbrace :: r) = some (.obj .nil, r) := by
  rw [parseVal.eq_def]
  simp [skipWs_cons (by decide : isJsonWs lbrace = false),
    skipWs_cons (by decide : isJsonWs rbrace = false),
    (by decide : ¬(lbrace = '"')), (by decide : ¬(lbrace = '['))]

theorem parseVal_obj_nonempty (f : Nat) {cs : List Char} {t : List Char}
    (hb : cs = '"' :: t) :
    parseVal (f + 1) (lbrace :: cs) =
      (match parseMembers f cs with
       | some (fs, rest1) => some (JVal.obj fs, rest1)
       | none => none) := by
  subst hb
  rw [parseVal.eq_def]
  simp [skipWs_cons (by decide : isJsonWs lbrace = false),
    skipWs_cons (by decide : isJsonWs '"' = false),
    (by decide : ¬(lbrace = '"')), (by decide : ¬(lbrace = '[')),
    (by decide : ¬(('"' : Char) = rbrace))]

theorem joinComma_head {s : List Char} {c : Char} {t : List Char} (hh : s = c :: t)
    (rest : List (List Char)) : ∃ u, joinComma (s :: rest) = c :: u := by
  cases rest with
  | nil => exact ⟨t, by simp [joinComma, hh]⟩
  | cons s2 rest2 => exact ⟨t ++ ',' :: joinComma (s2 :: rest2), by simp [joinComma, hh]⟩

/-!
The print-parse round trip on raw trees, by mutual structural induction.
-/

mutual

theorem parseVal_print : ∀ (v : JVal) (fuel : Nat) (r : List Char),
    rawOk v = true → sizeV v ≤ fuel → delimOk r = true →
    parseVal fuel (printR v ++ r) = some (v, r)
  | .null, fuel, r, _, hsz, _ => by
    cases fuel with
    | zero => simp only [sizeV] at hsz; omega
    | succ f => rw [printR_null]; exact parseVal_print_null f r
  | .bool true, fuel, r, _, hsz, _ => by
    cases fuel with
    | zero => simp only [sizeV] at hsz; omega
    | succ f => rw [printR_true]; exact parseVal_print_true f r
  | .bool false, fuel, r, _, hsz, _ => by
    cases fuel with
    | zero => simp only [sizeV] at hsz; omega
    | succ f => rw [printR_false]; exact parseVal_print_false f r
  | .num n, fuel, r, _, hsz, hdel => by
    cases fuel with
    | zero => simp only [sizeV] at hsz; omega
    | succ f =>
      obtain ⟨hds, hfs⟩ := delimOk_facts hdel
      rw [printR_num]
      exact parseVal_print_num n f r hds hfs
  | .str s, fuel, r, _, hsz, _ => by
    cases fuel with
    | zero => simp only [sizeV] at hsz; omega
    | succ f => rw [printR_str]; exact parseVal_print_str s f r
  | .arr xs, fuel, r, hok, hsz, hdel => by
    cases fuel with
    | zero => simp only [sizeV] at hsz; omega
    | succ f =>
      rw [printR_arr]
      have hokA : rawOkArr xs = true := by simpa [rawOk] using hok
      cases xs with
      | nil =>
        have hshape : ('[' :: joinComma (elemStrs JArr.nil) ++ [']']) ++ r =
            '[' :: ']' :: r := by
          simp [elemStrs_nil, joinComma]
        rw [hshape]
        exact parseVal_arr_empty f r
      | cons y ys =>
        obtain ⟨hoky, hokys⟩ : rawOk y = true ∧ rawOkArr ys = true := by
          simpa [rawOkArr] using hokA
        obtain ⟨c, t, hh, hgs⟩ := printR_head hoky
        obtain ⟨u, hju⟩ := joinComma_head hh (elemStrs ys)
        have hju2 : joinComma (elemStrs (.cons y ys)) = c :: u := by
          rw [elemStrs_cons]; exact hju
        have hshape : ('[' :: joinComma (elemStrs (.cons y ys)) ++ [']']) ++ r =
            '[' :: (joinComma (elemStrs (.cons y ys)) ++ ']' :: r) := by simp
        rw [hshape]
        have hcs : joinComma (elemStrs (.cons y ys)) ++ ']' :: r = c :: (u ++ ']' :: r) := by
          rw [hju2]; rfl
        rw [parseVal_arr_nonempty f hcs hgs]
        have hsza : sizeA (.cons y ys) ≤ f := by simp only [sizeV] at hsz; omega
        rw [parseElems_print (.cons y ys) f r hokA (by simp) hsza hdel]
  | .obj fs, fuel, r, hok, hsz, hdel => by
    cases fuel with
    | zero => simp only [sizeV] at hsz; omega
    | succ f =>
      rw [printR_obj]
      obtain ⟨hnd, hokF⟩ : keysNodup fs = true ∧ rawOkFields fs = true := by
        simpa [rawOk] using hok
      cases fs with
      | nil =>
        have hshape : (lbrace :: joinComma (fieldStrs JFields.nil) ++ [rbrace]) ++ r =
            lbrace :: rbrace :: r := by
          simp [fieldStrs_nil, joinComma]
        rw [hshape]
        exact parseVal_obj_empty f r
      | fcons k v fs2 =>
        obtain ⟨hokv, hokfs2⟩ : rawOk v = true ∧ rawOkFields fs2 = true := by
          simpa [rawOkFields] using hokF
        have hfield : escStr k ++ ':' :: printR v =
            '"' :: (escBody k ++ '"' :: ':' :: printR v) := by simp [escStr]
        obtain ⟨u, hju⟩ := joinComma_head hfield (fieldStrs fs2)
        have hju2 : joinComma (fieldStrs (.fcons k v fs2)) = '"' :: u := by
          rw [fieldStrs_cons hokv]; exact hju
        have hshape : (lbrace :: joinComma (fieldStrs (.fcons k v fs2)) ++ [rbrace]) ++ r =
            lbrace :: (joinComma (fieldStrs (.fcons k v fs2)) ++ rbrace :: r) := by simp
        rw [hshape]
        have hcs : joinComma (fieldStrs (.fcons k v fs2)) ++ rbrace :: r =
            '"' :: (u ++ rbrace :: r) := by
          rw [hju2]; rfl
        rw [parseVal_obj_nonempty f hcs]
        have hszf : sizeF (.fcons k v fs2) ≤ f := by simp only [sizeV] at hsz; omega
        rw [parseMembers_print (.fcons k v fs2) f r hokF hnd (by simp) hszf hdel]
  | .map es, fuel, r, hok, hsz, hdel => by simp [rawOk] at hok
  | .func, fuel, r, hok, hsz, hdel => by simp [rawOk] at hok

theorem parseElems_print : ∀ (xs : JArr) (fuel : Nat) (r : List Char),
    rawOkArr xs = true → xs ≠ .nil → sizeA xs ≤ fuel → delimOk r = true →
    parseElems fuel (joinComma (elemStrs xs) ++ ']' :: r) = some (xs, r)
  | .nil, _, _, _, hne, _, _ => absurd rfl hne
  | .cons x xs, fuel, r, hok, _, hsz, hdel => by
    obtain ⟨hokx, hokxs⟩ : rawOk x = true ∧ rawOkArr xs = true := by
      simpa [rawOkArr] using hok
    cases fuel with
    | zero => simp only [sizeA] at hsz; omega
    | succ f =>
      cases xs with
      | nil =>
        have hshape : joinComma (elemStrs (.cons x .nil)) ++ ']' :: r =
            printR x ++ ']' :: r := by
          rw [elemStrs_cons, elemStrs_nil]
          simp [joinComma]
        have hszx : sizeV x ≤ f := by simp only [sizeA] at hsz; omega
        have hv := parseVal_print x f (']' :: r) hokx hszx rfl
        rw [hshape, parseElems.eq_def]
        simp [hv, skipWs_cons (by decide : isJsonWs ']' = false)]
      | cons y ys =>
        have hshape : joinComma (elemStrs (.cons x (.cons y ys))) ++ ']' :: r =
            printR x ++ ',' :: (joinComma (elemStrs (.cons y ys)) ++ ']' :: r) := by
          rw [elemStrs_cons x (.cons y ys), elemStrs_cons y ys]
          simp [joinComma]
        have hszx : sizeV x ≤ f := by simp only [sizeA] at hsz ⊢; omega
        have hsza : sizeA (.cons y ys) ≤ f := by simp only [sizeA] at hsz ⊢; omega
        have hv := parseVal_print x f (',' :: (joinComma (elemStrs (.cons y ys)) ++ ']' :: r))
          hokx hszx rfl
        have hrec := parseElems_print (.cons y ys) f r hokxs (by simp) hsza hdel
        rw [hshape, parseElems.eq_def]
        simp [hv, skipWs_cons (by decide : isJsonWs ',' = false), hrec]

theorem parseMembers_print : ∀ (fs : JFields) (fuel : Nat) (r : List Char),
    rawOkFields fs = true → keysNodup fs = true → fs ≠ .nil → sizeF fs ≤ fuel →
    delimOk r = true →
    parseMembers fuel (joinComma (fieldStrs fs) ++ rbrace :: r) = some (fs, r)
  | .nil, _, _, _, _, hne, _, _ => absurd rfl hne
  | .fcons k v fs, fuel, r, hok, hnd, _, hsz, hdel => by
    obtain ⟨hokv, hokfs⟩ : rawOk v = true ∧ rawOkFields fs = true := by
      simpa [rawOkFields] using hok
    obtain ⟨hkey, hnd2⟩ : fs.hasKey k = false ∧ keysNodup fs = true := by
      have := hnd
      simp only [keysNodup, Bool.decide_and, Bool.and_eq_true, decide_eq_true_eq,
        Bool.not_eq_true] at this
      exact this
    cases fuel with
    | zero => simp only [sizeF] at hsz; omega
    | succ f =>
      cases fs with
      | nil =>
        have hshape : joinComma (fieldStrs (.fcons k v .nil)) ++ rbrace :: r =
            '"' :: (escBody k ++ '"' :: ':' :: (printR v ++ rbrace :: r)) := by
          rw [fieldStrs_cons hokv, fieldStrs_nil]
          simp [joinComma, escStr]
        have hszv : sizeV v ≤ f := by simp only [sizeF] at hsz; omega
        have hv := parseVal_print v f (rbrace :: r) hokv hszv rfl
        rw [hshape, parseMembers.eq_def]
        simp [skipWs_cons (by decide : isJsonWs '"' = false), parseStrBody_escBody,
          skipWs_cons (by decide : isJsonWs ':' = false), hv,
          skipWs_cons (by decide : isJsonWs rbrace = false),
          (by decide : ¬(rbrace = ','))]
      | fcons k2 v2 fs2 =>
        obtain ⟨hokv2, hokfs2⟩ : rawOk v2 = true ∧ rawOkFields fs2 = true := by
          simpa [rawOkFields] using hokfs
        have hshape : joinComma (fieldStrs (.fcons k v (.fcons k2 v2 fs2))) ++ rbrace :: r =
            '"' :: (escBody k ++ '"' :: ':' ::
              (printR v ++ ',' ::
                (joinComma (fieldStrs (.fcons k2 v2 fs2)) ++ rbrace :: r))) := by
          rw [fieldStrs_cons hokv, fieldStrs_cons hokv2]
          simp [joinComma, escStr]
        have hszv : sizeV v ≤ f := by simp only [sizeF] at hsz ⊢; omega
        have hszf : sizeF (.fcons k2 v2 fs2) ≤ f := by simp only [sizeF] at hsz ⊢; omega
        have hv := parseVal_print v f
          (',' :: (joinComma (fieldStrs (.fcons k2 v2 fs2)) ++ rbrace :: r))
          hokv hszv rfl
        have hrec := parseMembers_print (.fcons k2 v2 fs2) f r hokfs hnd2 (by simp) hszf hdel
        rw [hshape, parseMembers.eq_def]
        simp [skipWs_cons (by decide : isJsonWs '"' = false), parseStrBody_escBody,
          skipWs_cons (by decide : isJsonWs ':' = false), hv,
          skipWs_cons (by decide : isJsonWs ',' = false), hrec,
          combineField_new hkey]

end

/-!
The reviving transform undoes the replacer: on a well-formed value, parsing
the printed raw tree gives the raw tree back (previous section), and reviving
the raw tree restores the original Maps.
-/

theorem hasKey_rawOfFields : ∀ (mk : List Char) (fs : JFields) (k : List Char),
    (rawOfFields mk fs).hasKey k = fs.hasKey k
  | _, .nil, _ => rfl
  | mk, .fcons k2 v2 fs2, k => by
    simp only [rawOfFields, JFields.hasKey, JFields.getKey?]
    by_cases h : k2 = k
    · simp [h]
    · simp only [h, if_false]
      exact hasKey_rawOfFields mk fs2 k

theorem keysNodup_rawOfFields : ∀ (mk : List Char) (fs : JFields),
    keysNodup (rawOfFields mk fs) = keysNodup fs
  | _, .nil => rfl
  | mk, .fcons k v fs2 => by
    simp only [rawOfFields, keysNodup, hasKey_rawOfFields,
      keysNodup_rawOfFields mk fs2]

mutual

theorem rawOk_rawOf : ∀ (mk : List Char) (v : JVal), wfVal mk v = true →
    rawOk (rawOf mk v) = true
  | mk, .null, _ => rfl
  | mk, .bool b, _ => by cases b <;> rfl
  | mk, .num n, _ => rfl
  | mk, .str s, _ => rfl
  | mk, .arr xs, h => by
    have hA : wfArr mk xs = true := by simpa [wfVal] using h
    simpa [rawOf, rawOk] using rawOkArr_rawOf mk xs hA
  | mk, .obj fs, h => by
    obtain ⟨h1, h2, h3⟩ : ¬(fs.hasKey mk = true) ∧ keysNodup fs = true ∧
        wfFields mk fs = true := by simpa [wfVal] using h
    have := rawOkFields_rawOf mk fs h3
    simp [rawOf, rawOk, keysNodup_rawOfFields, h2, this]
  | mk, .map es, h => by
    obtain ⟨h1, h2⟩ : keysNodup es = true ∧ wfFields mk es = true := by
      simpa [wfVal] using h
    have := rawOkEntryArr mk es h2
    simp [rawOf, rawOk, keysNodup, JFields.hasKey, JFields.getKey?, rawOkFields,
      rawOkArr, this]
  | mk, .func, h => by simp [wfVal] at h

theorem rawOkArr_rawOf : ∀ (mk : List Char) (xs : JArr), wfArr mk xs = true →
    rawOkArr (rawOfArr mk xs) = true
  | mk, .nil, _ => rfl
  | mk, .cons x xs, h => by
    obtain ⟨h1, h2⟩ : wfVal mk x = true ∧ wfArr mk xs = true := by simpa [wfArr] using h
    simp [rawOfArr, rawOkArr, rawOk_rawOf mk x h1, rawOkArr_rawOf mk xs h2]

theorem rawOkFields_rawOf : ∀ (mk : List Char) (fs : JFields), wfFields mk fs = true →
    rawOkFields (rawOfFields mk fs) = true
  | mk, .nil, _ => rfl
  | mk, .fcons k v fs, h => by
    obtain ⟨h1, h2⟩ : wfVal mk v = true ∧ wfFields mk fs = true := by
      simpa [wfFields] using h
    simp [rawOfFields, rawOkFields, rawOk_rawOf mk v h1, rawOkFields_rawOf mk fs h2]

theorem rawOkEntryArr : ∀ (mk : List Char) (es : JFields), wfFields mk es = true →
    rawOkArr (entryArrOf mk es) = true
  | mk, .nil, _ => rfl
  | mk, .fcons k v es, h => by
    obtain ⟨h1, h2⟩ : wfVal mk v = true ∧ wfFields mk es = true := by
      simpa [wfFields] using h
    simp [entryArrOf, rawOkArr, rawOk, rawOk_rawOf mk v h1, rawOkEntryArr mk es h2]

end

theorem arrOwnProp_none {mk : List Char} (hgs : goodSentinel mk = true) (xs : JArr) :
    arrOwnProp? mk xs = none := by
  obtain ⟨h1, h2⟩ : ¬(mk = lengthChars) ∧ ¬(isCanonicalIndex mk = true) := by
    simpa [goodSentinel] using hgs
  rw [arrOwnProp?]
  rw [if_neg (by simpa [lengthChars] using h1)]
  rw [if_neg h2]

/-- The entry-pair arrays with the original (revived) map values in place. -/
def pureEntryArr : JFields → JArr
  | .nil => .nil
  | .fcons k v es => .cons (.arr (.cons (.str k) (.cons v .nil))) (pureEntryArr es)

theorem entriesOf_pure : ∀ (es : JFields), keysNodup es = true →
    entriesOf (pureEntryArr es) = .ok es
  | .nil, _ => rfl
  | .fcons k v es, hnd => by
    obtain ⟨hkey, hnd2⟩ : es.hasKey k = false ∧ keysNodup es = true := by
      simpa [keysNodup, Bool.not_eq_true] using hnd
    rw [pureEntryArr, entriesOf]
    rw [entriesOf_pure es hnd2]
    simp [combineField_new hkey]

theorem revive_entryPair (mk : List Char) (k : List Char)
    {w w' : JVal} (hgs : goodSentinel mk = true) (hw : revive mk w = .ok w') :
    revive mk (.arr (.cons (.str k) (.cons w .nil))) =
      .ok (.arr (.cons (.str k) (.cons w' .nil))) := by
  have hstr : revive mk (.str k) = .ok (.str k) := rfl
  have hnil : reviveArr mk .nil = .ok .nil := rfl
  have hxs : reviveArr mk (.cons (.str k) (.cons w .nil)) =
      .ok (.cons (.str k) (.cons w' .nil)) := by
    rw [reviveArr, hstr, reviveArr, hw, hnil]
  rw [revive, hxs]
  simp [arrOwnProp_none hgs]

mutual

theorem revive_rawOf : ∀ (mk : List Char) (v : JVal), goodSentinel mk = true →
    wfVal mk v = true → revive mk (rawOf mk v) = .ok v
  | mk, .null, _, _ => rfl
  | mk, .bool b, _, _ => by cases b <;> rfl
  | mk, .num n, _, _ => rfl
  | mk, .str s, _, _ => rfl
  | mk, .arr xs, hgs, h => by
    have hA : wfArr mk xs = true := by simpa [wfVal] using h
    have hrec := reviveArr_rawOf mk xs hgs hA
    rw [rawOf, revive, hrec]
    simp [arrOwnProp_none hgs]
  | mk, .obj fs, hgs, h => by
    obtain ⟨h1, h2, h3⟩ : ¬(fs.hasKey mk = true) ∧ keysNodup fs = true ∧
        wfFields mk fs = true := by simpa [wfVal] using h
    have hrec := reviveFields_rawOf mk fs hgs h3
    rw [rawOf, revive, hrec]
    have hget : fs.getKey? mk = none := by
      cases hg : fs.getKey? mk with
      | none => rfl
      | some w => exact absurd (by simp [JFields.hasKey, hg]) h1
    simp [hget]
  | mk, .map es, hgs, h => by
    obtain ⟨h1, h2⟩ : keysNodup es = true ∧ wfFields mk es = true := by
      simpa [wfVal] using h
    have hrec := reviveEntryArr_rawOf mk es hgs h2
    rw [rawOf, revive, reviveFields, revive, hrec]
    rw [reviveFields]
    simp only [arrOwnProp_none hgs]
    simp [JFields.getKey?, mapFrom, entriesOf_pure es h1]
  | mk, .func, _, h => by simp [wfVal] at h

theorem reviveArr_rawOf : ∀ (mk : List Char) (xs : JArr), goodSentinel mk = true →
    wfArr mk xs = true → reviveArr mk (rawOfArr mk xs) = .ok xs
  | mk, .nil, _, _ => rfl
  | mk, .cons x xs, hgs, h => by
    obtain ⟨h1, h2⟩ : wfVal mk x = true ∧ wfArr mk xs = true := by simpa [wfArr] using h
    rw [rawOfArr, reviveArr, revive_rawOf mk x hgs h1, reviveArr_rawOf mk xs hgs h2]

theorem reviveFields_rawOf : ∀ (mk : List Char) (fs : JFields), goodSentinel mk = true →
    wfFields mk fs = true → reviveFields mk (rawOfFields mk fs) = .ok fs
  | mk, .nil, _, _ => rfl
  | mk, .fcons k v fs, hgs, h => by
    obtain ⟨h1, h2⟩ : wfVal mk v = true ∧ wfFields mk fs = true := by
      simpa [wfFields] using h
    rw [rawOfFields, reviveFields, revive_rawOf mk v hgs h1,
      reviveFields_rawOf mk fs hgs h2]

theorem reviveEntryArr_rawOf : ∀ (mk : List Char) (es : JFields), goodSentinel mk = true →
    wfFields mk es = true → reviveArr mk (entryArrOf mk es) = .ok (pureEntryArr es)
  | mk, .nil, _, _ => rfl
  | mk, .fcons k v es, hgs, h => by
    obtain ⟨h1, h2⟩ : wfVal mk v = true ∧ wfFields mk es = true := by
      simpa [wfFields] using h
    have hpair := revive_entryPair mk k hgs (revive_rawOf mk v hgs h1)
    rw [entryArrOf, reviveArr, hpair, reviveEntryArr_rawOf mk es hgs h2, pureEntryArr]

end

/-!
Fuel sufficiency: the parser's fuel `length + 1` covers the printed text.
-/

mutual

theorem sizeV_le_len : ∀ (v : JVal), rawOk v = true → sizeV v ≤ (printR v).length
  | .null, _ => by simp [printR_null, sizeV, nullChars]
  | .bool true, _ => by simp [printR_true, sizeV, trueChars]
  | .bool false, _ => by simp [printR_false, sizeV, falseChars]
  | .num n, _ => by
    rw [printR_num]
    match n with
    | .ofNat m =>
      have hne := natDigits_ne_nil m
      have : 0 < (natDigits m).length := List.length_pos.mpr hne
      simpa [sizeV, intChars] using this
    | .negSucc m => simp [sizeV, intChars]
  | .str s, _ => by
    rw [printR_str]
    simp [sizeV, escStr]
  | .arr xs, h => by
    rw [printR_arr]
    have hA := sizeA_le_len xs (by simpa [rawOk] using h)
    simp only [sizeV, List.length_cons, List.length_append, List.length_singleton]
    omega
  | .obj fs, h => by
    rw [printR_obj]
    obtain ⟨h1, h2⟩ : keysNodup fs = true ∧ rawOkFields fs = true := by
      simpa [rawOk] using h
    have hF := sizeF_le_len fs h2
    simp only [sizeV, List.length_cons, List.length_append, List.length_singleton]
    omega
  | .map es, h => by simp [rawOk] at h
  | .func, h => by simp [rawOk] at h

theorem sizeA_le_len : ∀ (xs : JArr), rawOkArr xs = true →
    sizeA xs ≤ (joinComma (elemStrs xs)).length + 1
  | .nil, _ => by simp [elemStrs_nil, joinComma, sizeA]
  | .cons x .nil, h => by
    have hx : rawOk x = true := by simpa [rawOkArr] using h
    have := sizeV_le_len x hx
    rw [elemStrs_cons, elemStrs_nil]
    simp only [joinComma, sizeA]
    omega
  | .cons x (.cons y ys), h => by
    obtain ⟨hx, hrest⟩ : rawOk x = true ∧ rawOkArr (.cons y ys) = true := by
      simpa [rawOkArr] using h
    have h1 := sizeV_le_len x hx
    have h2 := sizeA_le_len (.cons y ys) hrest
    rw [elemStrs_cons x (.cons y ys)]
    have hsh : joinComma (printR x :: elemStrs (.cons y ys)) =
        printR x ++ ',' :: joinComma (elemStrs (.cons y ys)) := by
      rw [elemStrs_cons y ys]
      simp [joinComma]
    rw [hsh]
    simp only [sizeA, List.length_append, List.length_cons] at h2 ⊢
    omega

theorem sizeF_le_len : ∀ (fs : JFields), rawOkFields fs = true →
    sizeF fs ≤ (joinComma (fieldStrs fs)).length + 1
  | .nil, _ => by simp [fieldStrs_nil, joinComma, sizeF]
  | .fcons k v .nil, h => by
    have hv : rawOk v = true := by simpa [rawOkFields] using h
    have := sizeV_le_len v hv
    rw [fieldStrs_cons hv, fieldStrs_nil]
    simp only [joinComma, sizeF, List.length_append, List.length_cons]
    omega
  | .fcons k v (.fcons k2 v2 fs2), h => by
    obtain ⟨hv, hrest⟩ : rawOk v = true ∧ rawOkFields (.fcons k2 v2 fs2) = true := by
      simpa [rawOkFields] using h
    have hv2 : rawOk v2 = true := by
      have := hrest
      simp only [rawOkFields, Bool.decide_and, Bool.and_eq_true, decide_eq_true_eq] at this
      exact this.1
    have h1 := sizeV_le_len v hv
    have h2 := sizeF_le_len (.fcons k2 v2 fs2) hrest
    rw [fieldStrs_cons hv]
    have hsh : joinComma ((escStr k ++ ':' :: printR v) :: fieldStrs (.fcons k2 v2 fs2)) =
        (escStr k ++ ':' :: printR v) ++ ',' :: joinComma (fieldStrs (.fcons k2 v2 fs2)) := by
      rw [fieldStrs_cons hv2]
      simp [joinComma]
    rw [hsh]
    simp only [sizeF, List.length_append, List.length_cons] at h2 ⊢
    omega

end

theorem jsonify_map (mk : List Char) (es : JFields) :
    jsonify mk (.map es) = printR (rawOf mk (.map es)) := by
  simp [jsonify, rawOf, printRaw, printR]

/-- The serializer round trip: on a well-formed Map with a sentinel that is
not an array own-property name, deserialization undoes serialization
exactly. -/
theorem mapify_jsonify {mk : List Char} {es : JFields} (hgs : goodSentinel mk = true)
    (hwf : wfVal mk (.map es) = true) :
    mapify mk (.strv (jsonify mk (.map es))) = .map es := by
  have hok : rawOk (rawOf mk (.map es)) = true := rawOk_rawOf mk (.map es) hwf
  have hjson : jsonify mk (.map es) = printR (rawOf mk (.map es)) := jsonify_map mk es
  have hobj : rawOf mk (.map es) = .obj (.fcons mk (.arr (entryArrOf mk es)) .nil) := by
    rw [rawOf]
  have hne : printR (rawOf mk (.map es)) ≠ [] := by
    rw [hobj, printR_obj]
    simp
  have hparse : parseJson (printR (rawOf mk (.map es))) = some (rawOf mk (.map es)) := by
    unfold parseJson
    have hp := parseVal_print (rawOf mk (.map es))
      ((printR (rawOf mk (.map es))).length + 1) [] hok
      (Nat.le_trans (sizeV_le_len _ hok) (by omega)) rfl
    rw [List.append_nil] at hp
    rw [hp]
    rfl
  have hrev : revive mk (rawOf mk (.map es)) = .ok (.map es) :=
    revive_rawOf mk (.map es) hgs hwf
  rw [hjson]
  simp [mapify, hne, hparse, hrev, JVal.isMap]

/-!
Lemmas about the store mutations.
-/

theorem getKey_setEntry : ∀ (fs : JFields) (k : List Char) (v : JVal) (k' : List Char),
    (fs.setEntry k v).getKey? k' = if k = k' then some v else fs.getKey? k'
  | .nil, k, v, k' => by
    simp [JFields.setEntry, JFields.getKey?]
  | .fcons k2 v2 fs2, k, v, k' => by
    by_cases h2 : k2 = k
    · subst h2
      simp only [JFields.setEntry, if_pos rfl]
      by_cases h' : k2 = k'
      · simp [JFields.getKey?, h']
      · simp [JFields.getKey?, h']
    · simp only [JFields.setEntry, if_neg h2]
      by_cases h' : k2 = k'
      · subst h'
        have hne : ¬(k = k2) := fun e => h2 e.symm
        simp [JFields.getKey?, hne]
      · simp only [JFields.getKey?, if_neg h']
        exact getKey_setEntry fs2 k v k'

theorem getKey_setAll : ∀ (ps : List (List Char × JVal)) (fs : JFields) (k : List Char),
    (fs.setAll ps).getKey? k =
      (match lastAssign k ps with
       | some v => some v
       | none => fs.getKey? k)
  | [], fs, k => by simp [JFields.setAll, lastAssign]
  | (k1, v1) :: ps, fs, k => by
    rw [JFields.setAll, getKey_setAll ps (fs.setEntry k1 v1) k]
    rw [lastAssign]
    cases hl : lastAssign k ps with
    | some w => simp
    | none =>
      simp only []
      rw [getKey_setEntry]
      by_cases h : k1 = k
      · simp [h]
      · simp [h]

theorem setAll_append (fs : JFields) (a b : List (List Char × JVal)) :
    fs.setAll (a ++ b) = (fs.setAll a).setAll b := by
  induction a generalizing fs with
  | nil => rfl
  | cons p a ih =>
    obtain ⟨k, v⟩ := p
    rw [List.cons_append, JFields.setAll, JFields.setAll, ih]

theorem applyBatch_state : ∀ (ops : List BatchOp) (mk : List Char) (s : StoreState),
    (applyBatch mk s ops).slot = s.slot ∧ (applyBatch mk s ops).log = s.log ∧
    (applyBatch mk s ops).data = s.data.setAll (batchPairs ops)
  | [], mk, s => ⟨rfl, rfl, rfl⟩
  | .one k v :: ops, mk, s => by
    have ih := applyBatch_state ops mk (applyBatchOp mk s (.one k v))
    simpa [applyBatch, applyBatchOp, setItem, batchPairs, JFields.setAll] using ih
  | .many kvs :: ops, mk, s => by
    have ih := applyBatch_state ops mk (applyBatchOp mk s (.many kvs))
    simpa [applyBatch, applyBatchOp, setItems, batchPairs, setAll_append] using ih

theorem hasKey_removeKey : ∀ (fs : JFields) (k' k : List Char),
    (fs.removeKey k').hasKey k = if k = k' then false else fs.hasKey k
  | .nil, k', k => by simp [JFields.removeKey, JFields.hasKey, JFields.getKey?]
  | .fcons k2 v2 fs2, k', k => by
    by_cases h2 : k2 = k'
    · subst h2
      rw [JFields.removeKey, if_pos rfl, hasKey_removeKey fs2 k2 k]
      by_cases h' : k = k2
      · simp [h']
      · have hne : ¬(k2 = k) := fun e => h' e.symm
        simp [h', JFields.hasKey, JFields.getKey?, hne]
    · rw [JFields.removeKey, if_neg h2]
      by_cases h' : k2 = k
      · subst h'
        have hkk : ¬(k2 = k') := h2
        simp [JFields.hasKey, JFields.getKey?, hkk]
      · simp only [JFields.hasKey, JFields.getKey?, if_neg h']
        exact hasKey_removeKey fs2 k' k

theorem keysNodup_removeKey : ∀ (fs : JFields) (k : List Char),
    keysNodup fs = true → keysNodup (fs.removeKey k) = true
  | .nil, _, _ => rfl
  | .fcons k2 v2 fs2, k, h => by
    obtain ⟨h1, h2⟩ : fs2.hasKey k2 = false ∧ keysNodup fs2 = true := by
      simpa [keysNodup, Bool.not_eq_true] using h
    by_cases he : k2 = k
    · rw [JFields.removeKey, if_pos he]
      exact keysNodup_removeKey fs2 k h2
    · rw [JFields.removeKey, if_neg he]
      have hh : (fs2.removeKey k).hasKey k2 = false := by
        rw [hasKey_removeKey]
        by_cases hq : k2 = k
        · exact absurd hq he
        · simp [hq, h1]
      simp [keysNodup, hh, keysNodup_removeKey fs2 k h2]

theorem wfFields_removeKey : ∀ (mk : List Char) (fs : JFields) (k : List Char),
    wfFields mk fs = true → wfFields mk (fs.removeKey k) = true
  | mk, .nil, _, _ => rfl
  | mk, .fcons k2 v2 fs2, k, h => by
    obtain ⟨h1, h2⟩ : wfVal mk v2 = true ∧ wfFields mk fs2 = true := by
      simpa [wfFields] using h
    by_cases he : k2 = k
    · rw [JFields.removeKey, if_pos he]
      exact wfFields_removeKey mk fs2 k h2
    · rw [JFields.removeKey, if_neg he]
      simp [wfFields, h1, wfFields_removeKey mk fs2 k h2]

theorem wfVal_map_removeKey {mk : List Char} {es : JFields} (k : List Char)
    (h : wfVal mk (.map es) = true) : wfVal mk (.map (es.removeKey k)) = true := by
  obtain ⟨h1, h2⟩ : keysNodup es = true ∧ wfFields mk es = true := by
    simpa [wfVal] using h
  simp [wfVal, keysNodup_removeKey es k h1, wfFields_removeKey mk es k h2]

/-- Whether a deserialized store (always a `Map`) binds a key. -/
def JVal.mapHasKey : JVal → List Char → Bool
  | .map fs, k => fs.hasKey k
  | _, _ => false

/-- Extracting a calendar field: dividing by the unit and reducing modulo the
range equals first reducing modulo the larger unit. -/
theorem ediv_emod_field (t b k : Int) (hb : 0 < b) (hk : 0 < k) :
    (t / b) % k = (t % (b * k)) / b := by
  have hbk : 0 < b * k := mul_pos hb hk
  have h1 : b * k * (t / (b * k)) + t % (b * k) = t := Int.ediv_add_emod t (b * k)
  have h2 : t / b = t % (b * k) / b + k * (t / (b * k)) := by
    conv_lhs => rw [← h1]
    rw [show b * k * (t / (b * k)) + t % (b * k) =
      t % (b * k) + b * (k * (t / (b * k))) by ring]
    rw [Int.add_mul_ediv_left _ _ (ne_of_gt hb)]
  rw [h2, Int.add_mul_emod_self_left]
  have hr0 : 0 ≤ t % (b * k) := Int.emod_nonneg t (ne_of_gt hbk)
  have hr1 : t % (b * k) < b * k := Int.emod_lt_of_pos t hbk
  have hq0 : 0 ≤ t % (b * k) / b := Int.ediv_nonneg hr0 (le_of_lt hb)
  have hq1 : t % (b * k) / b < k := by
    rw [Int.ediv_lt_iff_lt_mul hb]
    calc t % (b * k) < b * k := hr1
    _ = k * b := by ring
  exact Int.emod_eq_of_lt hq0 hq1

/-- The time value decomposes into its UTC time-of-day fields. -/
theorem time_decomp (t : Int) :
    dayOf t * 86400000 + hourOf t * 3600000 + minOf t * 60000 +
      secOf t * 1000 + msOf t = t := by
  have e2 : hourOf t = (t % 86400000) / 3600000 := by
    unfold hourOf msPerHour
    exact ediv_emod_field t 3600000 24 (by norm_num) (by norm_num)
  have e3 : minOf t = (t % 3600000) / 60000 := by
    unfold minOf msPerMinute
    exact ediv_emod_field t 60000 60 (by norm_num) (by norm_num)
  have e4 : secOf t = (t % 60000) / 1000 := by
    unfold secOf msPerSecond
    exact ediv_emod_field t 1000 60 (by norm_num) (by norm_num)
  have a1 : 86400000 * (t / 86400000) + t % 86400000 = t := Int.ediv_add_emod t 86400000
  have a2 : 3600000 * ((t % 86400000) / 3600000) + (t % 86400000) % 3600000 =
      t % 86400000 := Int.ediv_add_emod _ 3600000
  have b2 : (t % 86400000) % 3600000 = t % 3600000 :=
    Int.emod_emod_of_dvd t (by norm_num)
  have a3 : 60000 * ((t % 3600000) / 60000) + (t % 3600000) % 60000 =
      t % 3600000 := Int.ediv_add_emod _ 60000
  have b3 : (t % 3600000) % 60000 = t % 60000 :=
    Int.emod_emod_of_dvd t (by norm_num)
  have a4 : 1000 * ((t % 60000) / 1000) + (t % 60000) % 1000 =
      t % 60000 := Int.ediv_add_emod _ 1000
  have b4 : (t % 60000) % 1000 = t % 1000 :=
    Int.emod_emod_of_dvd t (by norm_num)
  unfold dayOf msOf msPerDay msPerSecond
  rw [e2, e3, e4]
  omega

/-- Replacing the minute field by `current + n` shifts the time value by
exactly `n` minutes. -/
theorem setUTCMinutes_add (t n : Int) : setUTCMinutes t (minOf t + n) = t + n * 60000 := by
  have hd := time_decomp t
  unfold setUTCMinutes makeDate makeTime msPerDay msPerHour msPerMinute msPerSecond
  unfold dayOf msPerDay at hd ⊢
  omega

/-- C2: duration-token parsing matches the two-letter unit code MI (minute)
before the one-letter code M (month): for every base time, the token string
30mi adds exactly 30 minutes (1800000 ms), and the month interpretation
(token 30m) is a different date, so 30mi is never read as 30 months with a
stray trailing letter. -/
theorem c2_minute_token :
    (∀ t : Int, calcExpiresDate t ['3', '0', 'm', 'i'] = .ok (t + 1800000)) ∧
    calcExpiresDate 0 ['3', '0', 'm'] = .ok 78796800000 ∧
    (78796800000 : Int) ≠ 0 + 1800000 := by
  refine ⟨?_, ?_, by decide⟩
  · intro t
    have h : calcExpiresDate t ['3', '0', 'm', 'i'] =
        .ok (setUTCMinutes t (minOf t + 30)) := rfl
    rw [h, setUTCMinutes_add]
    norm_num
  · rw [show calcExpiresDate 0 ['3', '0', 'm'] =
      .ok (setUTCMonth 0 (monthOf 0 + 30)) from rfl]
    rw [show setUTCMonth 0 (monthOf 0 + 30) = 78796800000 by decide]

/-- C3 counterexample: computing an expiration from the unparseable input x
raises a TypeError (the match result is null and destructuring throws)
instead of returning base + 1 year, and the input 5x (matched token with an
unrecognized unit code) returns the base time unchanged, which is not
base + 1 year (at base 0, one year later is 31536000000 ms). -/
theorem c3_counterexample :
    calcExpiresDate 0 ['x'] = .error () ∧
    calcExpiresDate 0 ['5', 'x'] = .ok 0 ∧
    setUTCFullYear 0 (yearOf 0 + 1) = 31536000000 ∧ (0 : Int) ≠ 31536000000 :=
  ⟨rfl, rfl, by decide, by decide⟩

/-- C3 amended: the empty string (no tokens after splitting) falls back to
base + exactly 1 calendar year; an input whose tokens match the digit-letter
pattern but name no recognized unit leaves the base time unchanged; an input
containing a token with no digit at all makes `calcExpiresDate` throw a
TypeError (modelled as the error outcome), which only the caller's
`try`/`catch` in `set` absorbs. -/
theorem c3_default_fallback :
    (∀ t : Int,
      calcExpiresDate t [] = .ok (setUTCFullYear t (yearOf t + 1)) ∧
      calcExpiresDate t ['5', 'x'] = .ok t ∧
      calcExpiresDate t ['x'] = .error ()) ∧
    calcExpiresDate 0 [] = .ok 31536000000 := by
  refine ⟨fun t => ⟨rfl, rfl, rfl⟩, ?_⟩
  rw [show calcExpiresDate 0 [] = .ok (setUTCFullYear 0 (yearOf 0 + 1)) from rfl]
  rw [show setUTCFullYear 0 (yearOf 0 + 1) = 31536000000 by decide]

/-- C7: cookie expiration mode is selected exclusively by the `expires`
argument of `set`: a Date value is emitted verbatim, the literal string
session suppresses the expires attribute entirely, and every other string
goes through the duration-token conversion. -/
theorem c7_expiration_modes :
    ∀ (now d : Int) (s : List Char),
      setExpiresAttr now (.date d) = .ok (some d) ∧
      setExpiresAttr now (.strv sessionChars) = .ok none ∧
      (s ≠ sessionChars →
        setExpiresAttr now (.strv s) = Except.map some (calcExpiresDate now s)) := by
  intro now d s
  refine ⟨?_, ?_, ?_⟩
  · rw [setExpiresAttr, if_neg (by simp : ¬(ExpiresArg.date d = .strv sessionChars))]
    rfl
  · rw [setExpiresAttr, if_pos rfl]
  · intro hne
    have hns : ¬(ExpiresArg.strv s = ExpiresArg.strv sessionChars) := by
      intro he
      injection he with h2
      exact hne h2
    rw [setExpiresAttr, if_neg hns]
    show (match calcExpiresDate now s with
          | .ok w => Except.ok (some w)
          | .error er => Except.error er) = _
    cases calcExpiresDate now s with
    | ok w => rfl
    | error e => rfl

/-- C7 witness: the three modes at concrete inputs. -/
theorem c7_expiration_modes_witness :
    setExpiresAttr 0 (.date 5) = .ok (some 5) ∧
    (['1', 'y'] : List Char) ≠ sessionChars ∧
    setExpiresAttr 0 (.strv ['1', 'y']) = Except.map some (calcExpiresDate 0 ['1', 'y']) :=
  ⟨(c7_expiration_modes 0 5 ['1', 'y']).1, by decide,
   (c7_expiration_modes 0 5 ['1', 'y']).2.2 (by decide)⟩

/-!
Concrete fixtures for the claim witnesses.
-/

def mkDefault : List Char := ['_', 'm', 'a', 'p']

def notJsonChars : List Char := lbrace :: ['n', 'o', 't', ' ', 'j', 's', 'o', 'n']

def sampleEntries : JFields :=
  .fcons ['a'] (.map (.fcons ['b'] (.arr (.cons (.num 2) (.cons .null .nil))) .nil))
    (.fcons ['c'] (.str ['h', 'i']) .nil)

def store0 : StoreState := { data := .nil, slot := none, log := [] }

def store1 : StoreState :=
  { data := .fcons ['a'] (.num 1) (.fcons ['b'] (.str ['v']) .nil), slot := none, log := [] }

def storeClash : StoreState :=
  { data := .fcons ['x'] (.obj (.fcons mkDefault .null .nil)) .nil, slot := none, log := [] }

def batch3 : List BatchOp := [.one ['a'] (.num 1), .one ['b'] (.num 2), .one ['c'] (.num 3)]

/-- C1 counterexample: with the sentinel token `0` — a canonical array-index
string — and the one-entry collection `a ↦ 1`, which contains no key equal to
the sentinel anywhere, the reviver's `hasOwnProperty` check fires on the
serialized entry-pair array itself (`["a",1]` owns the index property `0`),
`new Map("a")` throws, and deserialization returns the empty Map instead of a
collection deeply equal to the original. -/
theorem c1_counterexample :
    mapify ['0'] (.strv (jsonify ['0'] (.map (.fcons ['a'] (.num 1) .nil)))) = .map .nil ∧
    JVal.map .nil ≠ .map (.fcons ['a'] (.num 1) .nil) :=
  ⟨by decide, by decide⟩

/-- C1 (amended): for every Keyed Collection of JSON-representable values
with unique keys, no plain object owning the sentinel key, and a sentinel
token that is not an array own-property name (not `length` and not a
canonical index string), deserializing the serialization with the same
sentinel yields the collection itself — key order, nesting and value kinds
included, since the equality is plain equality of the modelled trees. -/
theorem c1_roundtrip (mk : List Char) (es : JFields) (hgs : goodSentinel mk = true)
    (hwf : wfVal mk (.map es) = true) :
    mapify mk (.strv (jsonify mk (.map es))) = .map es :=
  mapify_jsonify hgs hwf

/-- C1 witness: the round trip at the default sentinel on a collection with a
nested Map, an array, `null`, a string and a number. -/
theorem c1_roundtrip_witness :
    goodSentinel mkDefault = true ∧ wfVal mkDefault (.map sampleEntries) = true ∧
    mapify mkDefault (.strv (jsonify mkDefault (.map sampleEntries))) = .map sampleEntries :=
  ⟨by decide, by decide, c1_roundtrip mkDefault sampleEntries (by decide) (by decide)⟩

/-- C4: `mapify` returns an empty Map on `undefined`, `null` and the empty
string, and on every text the parser rejects, without propagating the parse
error. -/
theorem c4_mapify_guard : ∀ mk : List Char,
    mapify mk .undef = .map .nil ∧ mapify mk .nullv = .map .nil ∧
    mapify mk (.strv []) = .map .nil ∧
    ∀ s : List Char, parseJson s = none → mapify mk (.strv s) = .map .nil := by
  intro mk
  refine ⟨rfl, rfl, rfl, ?_⟩
  intro s hp
  by_cases he : s = []
  · subst he; rfl
  · simp [mapify, he, hp]

/-- C4 witness: the malformed text `{not json` is rejected by the parser and
deserializes to the empty Map. -/
theorem c4_mapify_guard_witness :
    parseJson notJsonChars = none ∧ mapify mkDefault (.strv notJsonChars) = .map .nil :=
  ⟨by decide, (c4_mapify_guard mkDefault).2.2.2 notJsonChars (by decide)⟩

/-- C5 counterexample: a collection containing a function value does not
serialize to the empty-object text; the function is encoded as `null` inside
its entry array, so the output differs from the claimed fallback result. -/
theorem c5_counterexample :
    jsonify mkDefault (.map (.fcons ['f'] .func .nil)) ≠ emptyObjChars := by decide

/-- C5 (amended): serialization falls back to the empty-object text exactly
when the argument is not a Map (or when stringification throws, which cannot
happen for the finite values modelled here); a function value inside the
collection does not make serialization fail — stringifying a Map always
yields a string, with the function encoded as `null` in its entry array —
and no error reaches the caller. -/
theorem c5_jsonify_fallback : ∀ (mk : List Char) (v : JVal),
    (v.isMap = false → jsonify mk v = emptyObjChars) ∧
    (v.isMap = true → ∃ s, printRaw (rawOf mk v) = some s ∧ jsonify mk v = s) := by
  intro mk v
  constructor
  · intro h
    cases v with
    | map es => simp [JVal.isMap] at h
    | null => rfl
    | bool b => rfl
    | num n => rfl
    | str s => rfl
    | arr xs => rfl
    | obj fs => rfl
    | func => rfl
  · intro hm
    cases v with
    | map es =>
      refine ⟨printR (rawOf mk (.map es)), ?_, jsonify_map mk es⟩
      rw [rawOf]
      simp [printRaw, printR]
    | null => simp [JVal.isMap] at hm
    | bool b => simp [JVal.isMap] at hm
    | num n => simp [JVal.isMap] at hm
    | str s => simp [JVal.isMap] at hm
    | arr xs => simp [JVal.isMap] at hm
    | obj fs => simp [JVal.isMap] at hm
    | func => simp [JVal.isMap] at hm

/-- C5 witness: a number argument falls back to the empty-object text, and a
Map argument always stringifies. -/
theorem c5_jsonify_fallback_witness :
    jsonify mkDefault (.num 3) = emptyObjChars ∧
    ∃ s, printRaw (rawOf mkDefault (.map .nil)) = some s ∧
      jsonify mkDefault (.map .nil) = s :=
  ⟨(c5_jsonify_fallback mkDefault (.num 3)).1 rfl,
   (c5_jsonify_fallback mkDefault (.map .nil)).2 rfl⟩

/-- C6: when the decoded and revived root value is not itself a Map, `mapify`
discards it and returns the empty Map. -/
theorem c6_root_shape : ∀ (mk s : List Char) (v w : JVal),
    parseJson s = some v → revive mk v = .ok w → w.isMap = false →
    mapify mk (.strv s) = .map .nil := by
  intro mk s v w hp hr hm
  have hne : s ≠ [] := by
    intro he
    subst he
    rw [show parseJson [] = none from rfl] at hp
    exact Option.noConfusion hp
  simp [mapify, hne, hp, hr, hm]

/-- C6 witness: the well-formed text `[1,2]` decodes to an array, which is
silently discarded. -/
theorem c6_root_shape_witness :
    parseJson ['[', '1', ',', '2', ']'] =
      some (.arr (.cons (.num 1) (.cons (.num 2) .nil))) ∧
    mapify mkDefault (.strv ['[', '1', ',', '2', ']']) = .map .nil :=
  ⟨by decide,
   c6_root_shape mkDefault ['[', '1', ',', '2', ']']
     (.arr (.cons (.num 1) (.cons (.num 2) .nil)))
     (.arr (.cons (.num 1) (.cons (.num 2) .nil)))
     (by decide) rfl (by decide)⟩

/-- C8: any batch of `setItem`/`setItems` calls with the deferred-save flag
leaves the persisted slot and the write log untouched; a following
`saveAll()` performs the one write, whose text serializes the batched data,
and every key assigned during the batch is present with its last value. -/
theorem c8_noSave_batch : ∀ (mk : List Char) (s : StoreState) (ops : List BatchOp),
    (applyBatch mk s ops).slot = s.slot ∧
    (applyBatch mk s ops).log = s.log ∧
    (saveAll mk (applyBatch mk s ops)).slot =
      some (jsonify mk (.map (applyBatch mk s ops).data)) ∧
    (saveAll mk (applyBatch mk s ops)).log =
      s.log ++ [jsonify mk (.map (applyBatch mk s ops).data)] ∧
    ∀ k v, lastAssign k (batchPairs ops) = some v →
      (applyBatch mk s ops).data.getKey? k = some v := by
  intro mk s ops
  obtain ⟨h1, h2, h3⟩ := applyBatch_state ops mk s
  refine ⟨h1, h2, rfl, ?_, ?_⟩
  · show (applyBatch mk s ops).log ++ [_] = s.log ++ [_]
    rw [h2]
  · intro k v hl
    rw [h3, getKey_setAll, hl]

/-- C8 witness: three deferred `setItem` calls on an empty store leave the
slot untouched, and the batched data holds each item. -/
theorem c8_noSave_batch_witness :
    (applyBatch mkDefault store0 batch3).slot = store0.slot ∧
    lastAssign ['b'] (batchPairs batch3) = some (.num 2) ∧
    (applyBatch mkDefault store0 batch3).data.getKey? ['b'] = some (.num 2) :=
  ⟨(c8_noSave_batch mkDefault store0 batch3).1, by decide,
   (c8_noSave_batch mkDefault store0 batch3).2.2.2.2 ['b'] (.num 2) (by decide)⟩

/-- C9: removing an absent key changes nothing at all (in particular no
persisted write happens); removing a present key from a well-formed store
with saving enabled performs exactly one write, after which the key is bound
neither in memory nor in a fresh read of the persisted store. -/
theorem c9_removeItem : ∀ (mk k : List Char) (s : StoreState),
    (s.data.hasKey k = false → removeItem mk k false s = s) ∧
    (s.data.hasKey k = true →
      (removeItem mk k false s).slot = some (jsonify mk (.map (s.data.removeKey k))) ∧
      (removeItem mk k false s).log =
        s.log ++ [jsonify mk (.map (s.data.removeKey k))] ∧
      (removeItem mk k false s).data.hasKey k = false) ∧
    (s.data.hasKey k = true → goodSentinel mk = true → wfVal mk (.map s.data) = true →
      (getStore mk (removeItem mk k false s)).mapHasKey k = false) := by
  intro mk k s
  refine ⟨?_, ?_, ?_⟩
  · intro h
    simp [removeItem, h]
  · intro h
    refine ⟨?_, ?_, ?_⟩
    · simp [removeItem, h, setStore]
    · simp [removeItem, h, setStore]
    · simp [removeItem, h, setStore, hasKey_removeKey]
  · intro h hgs hwf
    have hwfR : wfVal mk (.map (s.data.removeKey k)) = true := wfVal_map_removeKey k hwf
    have hrt := mapify_jsonify hgs hwfR
    have hslot : (removeItem mk k false s).slot =
        some (jsonify mk (.map (s.data.removeKey k))) := by
      simp [removeItem, h, setStore]
    simp [getStore, slotArg, hslot, hrt, JVal.mapHasKey, hasKey_removeKey]

/-- C9 witness: removing the present key `a` writes once and the key is gone
from memory and from a re-read; removing the absent key `x` is a no-op. -/
theorem c9_removeItem_witness :
    store1.data.hasKey ['a'] = true ∧
    (removeItem mkDefault ['a'] false store1).log =
      store1.log ++ [jsonify mkDefault (.map (store1.data.removeKey ['a']))] ∧
    (getStore mkDefault (removeItem mkDefault ['a'] false store1)).mapHasKey ['a'] = false ∧
    removeItem mkDefault ['x'] false store1 = store1 :=
  ⟨by decide,
   ((c9_removeItem mkDefault ['a'] store1).2.1 (by decide)).2.1,
   (c9_removeItem mkDefault ['a'] store1).2.2 (by decide) (by decide) (by decide),
   (c9_removeItem mkDefault ['x'] store1).1 (by decide)⟩

/-- C10 counterexample: a store whose data holds only JSON-representable
values — here a plain object that happens to own the sentinel key `_map` with
a `null` value — is not copied intact by `getItems`: reviving the inner
object calls `new Map(null)`, which treats the `null` iterable as absent and
yields an empty Map, so the copy maps `x` to an empty Map where the data had
a plain object, and is not deeply equal to the data. -/
theorem c10_counterexample :
    getItems mkDefault storeClash = .map (.fcons ['x'] (.map .nil) .nil) ∧
    JVal.map (.fcons ['x'] (.map .nil) .nil) ≠ .map storeClash.data :=
  ⟨by decide, by decide⟩

/-- C10 (amended): on a store whose data is well formed — JSON-representable
values, unique keys, no nested plain object owning the sentinel key — and
whose sentinel is not an array own-property name, `getItems` returns a Map
equal to the store's data (it is freshly built by the serialize-then-parse
pipeline, so in the JS heap it shares no sub-collection with the
original). -/
theorem c10_getItems (mk : List Char) (s : StoreState) (hgs : goodSentinel mk = true)
    (hwf : wfVal mk (.map s.data) = true) : getItems mk s = .map s.data := by
  unfold getItems
  exact mapify_jsonify hgs hwf

/-- C10 witness: the deep copy of a small store equals its data. -/
theorem c10_getItems_witness :
    goodSentinel mkDefault = true ∧ wfVal mkDefault (.map store1.data) = true ∧
    getItems mkDefault store1 = .map store1.data :=
  ⟨by decide, by decide, c10_getItems mkDefault store1 (by decide) (by decide)⟩
